import Mathlib

/-!
Verification of the boolean-condition algebra layer of the dewolf decompiler
(`decompiler/structures/logic/custom_logic.py`).

The layer is built on an external term-rewriting engine (`simplifier.World`),
which owns all formula nodes.  That engine is not part of the repository
source; its operations (structural comparison, generic simplification,
CNF/DNF rewriting, node replacement, reclamation) are modelled here from the
specification's external contract (spec section 4.1), as a tree-valued world:
a store of definitions `id -> term` with value semantics.  Structural
hash-consing of the real graph (structurally equal subformulas are the same
node) is reflected by performing node replacement structurally everywhere.
All methods of `CustomLogicCondition` itself are translated directly from the
python source.
-/

namespace Dewolf

/-- Comparison operators of the term graph (the operator vocabulary of the bridge). -/
inductive CmpK
  | eq | neq | slt | sle | sgt | sge | ult | ule | ugt | uge
deriving DecidableEq, Repr

/-- A node of the term graph (`simplifier.world.nodes.WorldObject`), as a tree value:
`var` is a named bit-vector variable (symbols are 1-bit named variables),
`const` a fixed-width constant, `band`/`bor`/`bnot` the boolean operations
(`BitwiseAnd`/`BitwiseOr`/`BitwiseNegate`), `cmp` a numeric comparison. -/
inductive Term
  | var (name : String) (size : Nat)
  | const (value : Int) (size : Nat)
  | band (args : List Term)
  | bor (args : List Term)
  | bnot (arg : Term)
  | cmp (k : CmpK) (l : Term) (r : Term)
deriving Repr

mutual

/-- Structural size of a term (for well-founded reasoning about the tree). -/
def sizeT : Term → Nat
  | .var _ _ => 1
  | .const _ _ => 1
  | .band args => 1 + sizeTL args
  | .bor args => 1 + sizeTL args
  | .bnot a => 1 + sizeT a
  | .cmp _ l r => 1 + sizeT l + sizeT r

def sizeTL : List Term → Nat
  | [] => 0
  | a :: r => sizeT a + sizeTL r

end

mutual

/-- Structural equality of two graph nodes (`World.compare`).
Modelled from the spec: the engine's comparison is structural. -/
def beqT : Term → Term → Bool
  | .var n1 s1, .var n2 s2 => n1 == n2 && s1 == s2
  | .const v1 s1, .const v2 s2 => v1 == v2 && s1 == s2
  | .band a1, .band a2 => beqTL a1 a2
  | .bor a1, .bor a2 => beqTL a1 a2
  | .bnot a1, .bnot a2 => beqT a1 a2
  | .cmp k1 l1 r1, .cmp k2 l2 r2 => k1 == k2 && beqT l1 l2 && beqT r1 r2
  | _, _ => false

def beqTL : List Term → List Term → Bool
  | [], [] => true
  | x :: xs, y :: ys => beqT x y && beqTL xs ys
  | _, _ => false

end

/-- Unsigned value of a fixed-width constant (`Constant.unsigned`). -/
def toUnsigned (v : Int) (s : Nat) : Nat := (v % ((2 : Int) ^ s)).toNat

/-- Signed reading of an unsigned fixed-width value (`Constant.signed`). -/
def toSigned (u : Nat) (s : Nat) : Int :=
  if u < 2 ^ (s - 1) then (u : Int) else (u : Int) - (2 : Int) ^ s

/-- Bit-width of a node (`WorldObject.size`): variables and constants carry
their width, boolean operations take their operands' width, comparisons are 1-bit. -/
def tsize : Term → Nat
  | .var _ s => s
  | .const _ s => s
  | .band [] => 1
  | .band (a :: _) => tsize a
  | .bor [] => 1
  | .bor (a :: _) => tsize a
  | .bnot a => tsize a
  | .cmp _ _ _ => 1

/-- First-match association lookup by string key. -/
def lookupS {α : Type} : List (String × α) → String → Option α
  | [], _ => none
  | p :: r, n => if p.1 = n then some p.2 else lookupS r n

/-- First-match association lookup by numeric key. -/
def lookupN {α : Type} : List (Nat × α) → Nat → Option α
  | [], _ => none
  | p :: r, n => if p.1 = n then some p.2 else lookupN r n

mutual

/-- `World.replace(old, new)` restricted to one tree: replace every subterm
structurally equal to `old` by `new`.  Modelled from the spec: in the
hash-consed graph all structurally equal subformulas are one node, so
replacing a node everywhere it is referenced is structural replacement. -/
def substT (old new : Term) : Term → Term
  | .var n s => if beqT (.var n s) old then new else .var n s
  | .const v s => if beqT (.const v s) old then new else .const v s
  | .band args => if beqT (.band args) old then new else .band (substTL old new args)
  | .bor args => if beqT (.bor args) old then new else .bor (substTL old new args)
  | .bnot a => if beqT (.bnot a) old then new else .bnot (substT old new a)
  | .cmp k l r => if beqT (.cmp k l r) old then new else .cmp k (substT old new l) (substT old new r)

def substTL (old new : Term) : List Term → List Term
  | [] => []
  | a :: r => substT old new a :: substTL old new r

end

mutual

/-- Whether a term contains no conjunction node. -/
def noAndT : Term → Bool
  | .var _ _ => true
  | .const _ _ => true
  | .band _ => false
  | .bor args => noAndTL args
  | .bnot a => noAndT a
  | .cmp _ l r => noAndT l && noAndT r

def noAndTL : List Term → Bool
  | [] => true
  | a :: r => noAndT a && noAndTL r

end

mutual

/-- All variable occurrences of a term with their widths (with duplicates). -/
def termVarsT : Term → List (String × Nat)
  | .var n s => [(n, s)]
  | .const _ _ => []
  | .band args => termVarsTL args
  | .bor args => termVarsTL args
  | .bnot a => termVarsT a
  | .cmp _ l r => termVarsT l ++ termVarsT r

def termVarsTL : List Term → List (String × Nat)
  | [] => []
  | a :: r => termVarsT a ++ termVarsTL r

end

/-- Keep-first deduplication of variable lists by name. -/
def dedupKeysAux : List String → List (String × Nat) → List (String × Nat)
  | _, [] => []
  | seen, p :: r =>
    if seen.contains p.1 then dedupKeysAux seen r else p :: dedupKeysAux (p.1 :: seen) r

def dedupKeys (l : List (String × Nat)) : List (String × Nat) := dedupKeysAux [] l

/-- Keep-first deduplication of a list of strings. -/
def dedupStrAux : List String → List String → List String
  | _, [] => []
  | seen, n :: r =>
    if seen.contains n then dedupStrAux seen r else n :: dedupStrAux (n :: seen) r

def dedupStr (l : List String) : List String := dedupStrAux [] l

/-- The symbols of a formula (`_get_symbols`): the named 1-bit variables of its
post-order traversal.  In this embedding named variables are never bound by a
definition, so `_is_symbol` reduces to the width test; the hash-consed graph
yields each symbol node once, hence the deduplication. -/
def termSymsT (t : Term) : List String :=
  dedupStr ((termVarsT t).filterMap fun p => if p.2 == 1 then some p.1 else none)

/-- Membership in a term list up to structural comparison. -/
def memT (t : Term) : List Term → Bool
  | [] => false
  | a :: r => beqT a t || memT t r

def dedupTAux : List Term → List Term → List Term
  | _, [] => []
  | seen, a :: r => if memT a seen then dedupTAux seen r else a :: dedupTAux (a :: seen) r

/-- Keep-first structural deduplication of a term list. -/
def dedupT (l : List Term) : List Term := dedupTAux [] l

mutual

/-- Post-order list of the comparison subterms of a formula (the
non-`And`/`Or`/`Not` operation nodes walked by `_replace_real_conditions_by_symbols`). -/
def cmpSubT : Term → List Term
  | .var _ _ => []
  | .const _ _ => []
  | .band args => cmpSubTL args
  | .bor args => cmpSubTL args
  | .bnot a => cmpSubT a
  | .cmp k l r => cmpSubT l ++ cmpSubT r ++ [.cmp k l r]

def cmpSubTL : List Term → List Term
  | [] => []
  | a :: r => cmpSubT a ++ cmpSubTL r

end

/-- Numeric outcome of one comparison over bit-vector values of width `sz`. -/
def evalCmp (k : CmpK) (sz : Nat) (a b : Nat) : Nat :=
  let res : Bool :=
    match k with
    | .eq => a == b
    | .neq => a != b
    | .ult => decide (a < b)
    | .ule => decide (a ≤ b)
    | .ugt => decide (b < a)
    | .uge => decide (b ≤ a)
    | .slt => decide (toSigned a sz < toSigned b sz)
    | .sle => decide (toSigned a sz ≤ toSigned b sz)
    | .sgt => decide (toSigned b sz < toSigned a sz)
    | .sge => decide (toSigned b sz ≤ toSigned a sz)
  if res then 1 else 0

mutual

/-- Bit-vector evaluation of a term under an assignment of its variables.
This is the semantic ground truth used to model the engine's generic
algebra-preserving simplification pass. -/
def evalT (env : List (String × Nat)) : Term → Nat
  | .var n s => (lookupS env n).getD 0 % 2 ^ s
  | .const v s => toUnsigned v s
  | .band args => evalAndL env (2 ^ tsize (.band args) - 1) args
  | .bor args => evalOrL env args
  | .bnot a => Nat.xor (2 ^ tsize a - 1) (evalT env a)
  | .cmp k l r => evalCmp k (max (tsize l) (tsize r)) (evalT env l) (evalT env r)

def evalAndL (env : List (String × Nat)) (ones : Nat) : List Term → Nat
  | [] => ones
  | a :: r => Nat.land (evalT env a) (evalAndL env ones r)

def evalOrL (env : List (String × Nat)) : List Term → Nat
  | [] => 0
  | a :: r => Nat.lor (evalT env a) (evalOrL env r)

end

/-- Every assignment of the given variables (each width `s` variable ranges
over `0 .. 2^s - 1`). -/
def allEnvs : List (String × Nat) → List (List (String × Nat))
  | [] => [[]]
  | p :: rest => (List.range (2 ^ p.2)).flatMap fun v => (allEnvs rest).map fun ρ => (p.1, v) :: ρ

/-- Whether a term is true under every assignment of its variables. -/
def tautB (t : Term) : Bool :=
  (allEnvs (dedupKeys (termVarsT t))).all fun ρ => evalT ρ t != 0

/-- Whether a term is false under every assignment of its variables. -/
def unsatB (t : Term) : Bool :=
  (allEnvs (dedupKeys (termVarsT t))).all fun ρ => evalT ρ t == 0

/-- Whether the conjunction of `others` semantically implies `t`. -/
def impliedByConjB (others : List Term) (t : Term) : Bool :=
  (allEnvs (dedupKeys (termVarsT (Term.band (t :: others))))).all fun ρ =>
    !(others.all fun o => evalT ρ o != 0) || (evalT ρ t != 0)

/-- Drop, left to right, every conjunct that is implied by the remaining ones. -/
def removeImpliedAux (kept : List Term) : List Term → List Term
  | [] => kept
  | a :: r => if impliedByConjB (kept ++ r) a then removeImpliedAux kept r
              else removeImpliedAux (kept ++ [a]) r

/-- Rebuild a conjunction from its remaining conjuncts (an empty conjunction
is true, a single conjunct stands alone). -/
def collapseConj : List Term → Term
  | [] => .const 1 1
  | [x] => x
  | x :: y :: r => .band (x :: y :: r)

/-- The conjunction step of the modelled simplifier: drop redundant conjuncts. -/
def simplifyConj : Term → Term
  | .band args => collapseConj (removeImpliedAux [] args)
  | t => t

/-- Modelled from the spec: the engine's generic algebra-preserving
simplification pass (`WorldObject.simplify`), "this is where numeric algebra,
e.g. `x<10 ∧ x=5 → x=5`, happens".  The model rewrites a formula to the
true-constant when it is valid, to the false-constant when it is
unsatisfiable, and drops redundant conjuncts of a conjunction; all three are
algebra-preserving. -/
def simplifyTerm (t : Term) : Term :=
  if tautB t then .const 1 1
  else if unsatB t then .const 0 1
  else simplifyConj t

/-- `is_true` on a node: a constant with nonzero unsigned value. -/
def isTrueT : Term → Bool
  | .const v s => toUnsigned v s != 0
  | _ => false

/-- `is_false` on a node: a constant with zero unsigned value. -/
def isFalseT : Term → Bool
  | .const v s => toUnsigned v s == 0
  | _ => false

def isConstT : Term → Bool
  | .const _ _ => true
  | _ => false

/-- `_is_symbol`: a 1-bit variable with no definition.  Named variables are
never bound by a definition in this embedding (definitions bind only the
numbered variables allocated by `new_variable`), so the definition lookup of
the source is always `None` here. -/
def isSymbolT : Term → Bool
  | .var _ s => s == 1
  | _ => false

/-- `_is_literal`: a symbol or a negated symbol. -/
def isLiteralT : Term → Bool
  | .var _ s => s == 1
  | .bnot (.var _ s) => s == 1
  | _ => false

/-- Whether a term is a disjunction node all of whose operands are literals. -/
def isBorOfLits : Term → Bool
  | .bor args => args.all isLiteralT
  | _ => false

/-- `_is_disjunction_of_literals`: a literal, or a disjunction of literals. -/
def isDisjLitsT (t : Term) : Bool :=
  if isLiteralT t then true else isBorOfLits t

def isConjT : Term → Bool
  | .band _ => true
  | _ => false

def isDisjT : Term → Bool
  | .bor _ => true
  | _ => false

def isNegT : Term → Bool
  | .bnot _ => true
  | _ => false

/-- Whether a term is a conjunction node all of whose operands are
disjunctions of literals. -/
def isConjOfDisjLits : Term → Bool
  | .band args => args.all isDisjLitsT
  | _ => false

/-- `is_cnf_form`: true/false, a disjunction of literals, or a conjunction
all of whose clauses are disjunctions of literals. -/
def isCnfFormT (t : Term) : Bool :=
  if isTrueT t || isFalseT t || isDisjLitsT t then true
  else isConjOfDisjLits t

/-- `_custom_negate`: negate a node, eliminating a double negation. -/
def customNegate : Term → Term
  | .bnot a => a
  | t => .bnot t

/-- Complement operator of a comparison. -/
def negateCmpK : CmpK → CmpK
  | .eq => .neq
  | .neq => .eq
  | .slt => .sge
  | .sge => .slt
  | .sle => .sgt
  | .sgt => .sle
  | .ult => .uge
  | .uge => .ult
  | .ule => .ugt
  | .ugt => .ule

/-- `Operation.negate()` on a comparison node (its copied tree): flip the
operator to its complement.  Modelled from the spec's operator vocabulary. -/
def negateCmp : Term → Term
  | .cmp k l r => .cmp (negateCmpK k) l r
  | t => .bnot t

mutual

/-- Whether a term is 1-bit symbolic material: variables and constants of
width 1 combined by the boolean connectives only. -/
def symbolicT : Term → Bool
  | .var _ s => s == 1
  | .const _ s => s == 1
  | .band args => symbolicTL args
  | .bor args => symbolicTL args
  | .bnot a => symbolicT a
  | .cmp _ _ _ => false

def symbolicTL : List Term → Bool
  | [] => true
  | a :: r => symbolicT a && symbolicTL r

end

/-- A literal for normal-form conversion: a symbol name with a polarity. -/
abbrev Lit := String × Bool

/-- The graph node of one literal. -/
def litT (l : Lit) : Term :=
  if l.2 then .var l.1 1 else .bnot (.var l.1 1)

/-- Pairwise concatenation of two clause sets (the distribution step of
normal-form conversion). -/
def crossApp (A B : List (List Lit)) : List (List Lit) :=
  A.flatMap fun a => B.map fun b => a ++ b

/-- Distribute a list of clause sets (fold of `crossApp`, unit `[[]]`). -/
def distAll : List (List (List Lit)) → List (List Lit)
  | [] => [[]]
  | A :: r => crossApp A (distAll r)

def concatAll : List (List (List Lit)) → List (List Lit)
  | [] => []
  | A :: r => A ++ concatAll r

mutual

/-- Clause sets of the conjunctive normal form of a term (under an outer
negation flag): the result is read as a conjunction of disjunctions.
Part of the model of the engine's `ToCnfVisitor` (spec: "rewrite a subgraph
in place to conjunctive normal form").  The comparison case is a placeholder
literal; normal-form conversion is used on symbolic formulas only. -/
def cnfCl (neg : Bool) : Term → List (List Lit)
  | .var n _ => [[(n, !neg)]]
  | .const v s => if (toUnsigned v s != 0) != neg then [] else [[]]
  | .band args => if neg then distAll (cnfClL true args) else concatAll (cnfClL false args)
  | .bor args => if neg then concatAll (cnfClL true args) else distAll (cnfClL false args)
  | .bnot a => cnfCl (!neg) a
  | .cmp _ _ _ => [[("#cmp", !neg)]]

def cnfClL (neg : Bool) : List Term → List (List (List Lit))
  | [] => []
  | a :: r => cnfCl neg a :: cnfClL neg r

end

mutual

/-- Cube sets of the disjunctive normal form of a term (under an outer
negation flag): the result is read as a disjunction of conjunctions.
Part of the model of the engine's `ToDnfVisitor`. -/
def dnfCu (neg : Bool) : Term → List (List Lit)
  | .var n _ => [[(n, !neg)]]
  | .const v s => if (toUnsigned v s != 0) != neg then [[]] else []
  | .band args => if neg then concatAll (dnfCuL true args) else distAll (dnfCuL false args)
  | .bor args => if neg then distAll (dnfCuL true args) else concatAll (dnfCuL false args)
  | .bnot a => dnfCu (!neg) a
  | .cmp _ _ _ => [[("#cmp", !neg)]]

def dnfCuL (neg : Bool) : List Term → List (List (List Lit))
  | [] => []
  | a :: r => dnfCu neg a :: dnfCuL neg r

end

/-- One CNF clause as a graph node (a disjunction of literals). -/
def clauseToTerm : List Lit → Term
  | [] => .const 0 1
  | [l] => litT l
  | l :: ls => .bor ((l :: ls).map litT)

/-- A CNF clause set as a graph node (a conjunction of disjunctions of literals). -/
def clausesToTerm (cs : List (List Lit)) : Term :=
  if cs.isEmpty then .const 1 1
  else if cs.any List.isEmpty then .const 0 1
  else match cs with
    | [c] => clauseToTerm c
    | _ => .band (cs.map clauseToTerm)

/-- One DNF cube as a graph node (a conjunction of literals). -/
def cubeToTerm : List Lit → Term
  | [] => .const 1 1
  | [l] => litT l
  | l :: ls => .band ((l :: ls).map litT)

/-- A DNF cube set as a graph node (a disjunction of conjunctions of literals). -/
def cubesToTerm (cs : List (List Lit)) : Term :=
  if cs.isEmpty then .const 0 1
  else if cs.any List.isEmpty then .const 1 1
  else match cs with
    | [c] => cubeToTerm c
    | _ => .bor (cs.map cubeToTerm)

/-- Satisfaction of one literal under an assignment. -/
def litSatB (ρ : List (String × Nat)) (l : Lit) : Bool :=
  if l.2 then ((lookupS ρ l.1).getD 0 % 2 != 0) else ((lookupS ρ l.1).getD 0 % 2 == 0)

/-- Satisfaction of a cube (a conjunction of literals). -/
def cubeSatB (ρ : List (String × Nat)) (c : List Lit) : Bool := c.all (litSatB ρ)

/-- Satisfaction of a cube set (a disjunction of cubes). -/
def cubesSatB (ρ : List (String × Nat)) (cs : List (List Lit)) : Bool := cs.any (cubeSatB ρ)

/-- Modelled from the spec: the engine's in-place rewrite of a node to
conjunctive normal form (`ToCnfVisitor`). -/
def cnfTermOf (t : Term) : Term := clausesToTerm (cnfCl false t)

/-- Modelled from the spec: the engine's in-place rewrite of a node to
disjunctive normal form (`ToDnfVisitor`). -/
def dnfTermOf (t : Term) : Term := cubesToTerm (dnfCu false t)

/-- A reference held by a formula handle: either a named variable of the graph
(a symbol wrapped directly) or a numbered variable allocated by
`new_variable` and bound to its condition by a definition. -/
inductive VarRef
  | named (name : String) (size : Nat)
  | id (k : Nat)
deriving DecidableEq, Repr

/-- `CustomLogicCondition`: a lightweight handle, a variable reference plus the
identity of the term graph owning it. -/
structure CLC where
  ref : VarRef
  wid : Nat
deriving DecidableEq, Repr

/-- The term graph (`simplifier.world.World`), modelled from the spec as an
identity, a store of definitions for the numbered variables, and the
allocation counter of `new_variable`. -/
structure World where
  wid : Nat
  defs : List (Nat × Term)
  counter : Nat
deriving Repr

/-- Rewrite the first definition of the given variable by `f`. -/
def updateFirstDef (f : Term → Term) : List (Nat × Term) → Nat → List (Nat × Term)
  | [], _ => []
  | p :: r, k => if p.1 = k then (p.1, f p.2) :: r else p :: updateFirstDef f r k

/-- Erase the first definition of the given variable. -/
def eraseFirstDef : List (Nat × Term) → Nat → List (Nat × Term)
  | [], _ => []
  | p :: r, k => if p.1 = k then r else p :: eraseFirstDef r k

def World.getDef (w : World) (k : Nat) : Option Term := lookupN w.defs k

def World.update (w : World) (k : Nat) (f : Term → Term) : World :=
  ⟨w.wid, updateFirstDef f w.defs k, w.counter⟩

/-- `World.replace(old, new)` — modelled from the spec: replace a node by
another everywhere it is referenced; with hash-consing this is structural
replacement throughout every definition. -/
def World.replaceEverywhere (w : World) (old next : Term) : World :=
  ⟨w.wid, w.defs.map fun p => (p.1, substT old next p.2), w.counter⟩

/-- `World.cleanup(roots)` — modelled from the spec: reclaim the given
no-longer-referenced temporary variables and what only they reach. -/
def World.cleanup (w : World) (roots : List Nat) : World :=
  ⟨w.wid, roots.foldl eraseFirstDef w.defs, w.counter⟩

/-- Modelled from the spec: parameterless `cleanup` reclaims nodes unreachable
from every live variable; in this tree-valued embedding every definition is
rooted by its variable, so nothing is reclaimed. -/
def World.cleanupAll (w : World) : World := w

/-- Modelled from the spec: `free_world_condition` makes the defining term of
a variable independent of shared structure; trees are values, so it is the
identity here. -/
def World.freeWorldCondition (w : World) (_r : VarRef) : World := w

/-- `_condition`: dereference the handle's variable through its definition,
falling back to the variable itself.  A dangling numbered reference (possible
only after its definition was reclaimed) dereferences to a placeholder. -/
def World.condOf (w : World) (c : CLC) : Term :=
  match c.ref with
  | .named n s => .var n s
  | .id k => (lookupN w.defs k).getD (.const 0 1)

/-- `CustomLogicCondition.__init__`: wrapping a variable reuses it directly;
wrapping any other node allocates a fresh numbered variable and binds it to
the node by a definition. -/
def clcInit (w : World) (t : Term) : CLC × World :=
  match t with
  | .var n s => (⟨.named n s, w.wid⟩, w)
  | _ => (⟨.id w.counter, w.wid⟩, ⟨w.wid, (w.counter, t) :: w.defs, w.counter + 1⟩)

/-- `copy`: wrap the dereferenced condition again. -/
def copyH (self : CLC) (w : World) : CLC × World := clcInit w (w.condOf self)

/-- `initialize_symbol`: a handle on a named 1-bit variable. -/
def initialize_symbol (name : String) (w : World) : CLC := ⟨.named name 1, w.wid⟩

/-- `initialize_true`: a handle on the true constant. -/
def initialize_true (w : World) : CLC × World := clcInit w (.const 1 1)

/-- `initialize_false`: a handle on the false constant. -/
def initialize_false (w : World) : CLC × World := clcInit w (.const 0 1)

def is_true (w : World) (c : CLC) : Bool := isTrueT (w.condOf c)

def is_false (w : World) (c : CLC) : Bool := isFalseT (w.condOf c)

def is_symbol (w : World) (c : CLC) : Bool := isSymbolT (w.condOf c)

def is_literal (w : World) (c : CLC) : Bool := isLiteralT (w.condOf c)

def is_disjunction_of_literals (w : World) (c : CLC) : Bool := isDisjLitsT (w.condOf c)

def is_cnf_form (w : World) (c : CLC) : Bool := isCnfFormT (w.condOf c)

def is_conjunction (w : World) (c : CLC) : Bool := isConjT (w.condOf c)

def is_disjunction (w : World) (c : CLC) : Bool := isDisjT (w.condOf c)

def is_negation (w : World) (c : CLC) : Bool := isNegT (w.condOf c)

/-- `is_equal_to`: structural comparison of the two dereferenced conditions. -/
def is_equal_to (w : World) (a b : CLC) : Bool := beqT (w.condOf a) (w.condOf b)

/-- `does_imply` (source lines 185-192): build `NOT(self) OR other` as a
temporary handle, run the generic simplifier on its definition, read whether
it became the true constant, reclaim the temporary, return the reading
(`bitwise_or` always yields an operation node, so the temporary handle is a
fresh numbered variable bound by a definition). -/
def does_imply (self other : CLC) (w : World) : Bool × World :=
  let t : Term := .bor [customNegate (w.condOf self), w.condOf other]
  let k := w.counter
  let w1 : World := ⟨w.wid, (k, t) :: w.defs, w.counter + 1⟩
  let w2 := (w1.freeWorldCondition (.id k)).update k simplifyTerm
  let value := is_true w2 ⟨.id k, w.wid⟩
  (value, w2.cleanup [k])

/-- `is_equivalent_to` (shared condition interface, modelled from the spec):
mutual implication both ways. -/
def is_equivalent_to (a b : CLC) (w : World) : Bool × World :=
  let r1 := does_imply a b w
  let r2 := does_imply b a r1.2
  (r1.1 && r2.1, r2.2)

/-- The engine rewrite of the handle variable's definition to CNF
(`ToCnfVisitor(self._variable)`); a bare named variable has no definition and
is untouched. -/
def cnfVisit (self : CLC) (w : World) : World :=
  match self.ref with
  | .named _ _ => w
  | .id k => w.update k cnfTermOf

/-- `to_cnf` (source lines 194-200): no-op when already in CNF form, otherwise
rewrite the handle's node in place and return the same handle. -/
def to_cnf (self : CLC) (w : World) : CLC × World :=
  if is_cnf_form w self then (self, w)
  else (self, cnfVisit self (w.freeWorldCondition self.ref))

/-- The engine rewrite of the handle variable's definition to DNF
(`ToDnfVisitor`); a bare named variable has no definition and is untouched. -/
def dnfVisit (self : CLC) (w : World) : World :=
  match self.ref with
  | .named _ _ => w
  | .id k => w.update k dnfTermOf

/-- `to_dnf` (source lines 202-207): rewrite a copy of the formula to DNF and
return the copy's handle. -/
def to_dnf (self : CLC) (w : World) : CLC × World :=
  let r := copyH self w
  (r.1, dnfVisit r.1 (r.2.freeWorldCondition r.1.ref))

/-- `simplify` (source lines 209-221): run the generic pass on the handle's
definition in place.  The handles of the modelled flows hold non-temporary
variables, which take the in-place branch; a bare named variable has no
definition and is untouched. -/
def simplifyCLC (self : CLC) (w : World) : CLC × World :=
  match self.ref with
  | .named _ _ => (self, w)
  | .id k => (self, (w.freeWorldCondition self.ref).update k simplifyTerm)

/-- Failure modes of the n-ary constructors: an empty clause list (the
`clauses[0]` subscript fails) or operands from different term graphs
(modelled from the spec: the engine fails with `MismatchedGraph`). -/
inductive LogicErr
  | emptyClauses
  | mismatchedGraph
deriving DecidableEq, Repr

/-- `conjunction_of`: n-ary conjunction built on the world of the first
clause; the engine rejects operands of a different graph. -/
def conjunction_of (clauses : List CLC) (w : World) : Except LogicErr (CLC × World) :=
  match clauses with
  | [] => .error .emptyClauses
  | c :: rest =>
    if (c :: rest).all (fun x => x.wid == c.wid) then
      .ok (clcInit w (.band ((c :: rest).map w.condOf)))
    else .error .mismatchedGraph

/-- `disjunction_of`: n-ary disjunction built on the world of the first
clause; the engine rejects operands of a different graph. -/
def disjunction_of (clauses : List CLC) (w : World) : Except LogicErr (CLC × World) :=
  match clauses with
  | [] => .error .emptyClauses
  | c :: rest =>
    if (c :: rest).all (fun x => x.wid == c.wid) then
      .ok (clcInit w (.bor ((c :: rest).map w.condOf)))
    else .error .mismatchedGraph

/-- `__invert__`: wrap the custom negation of the handle's condition. -/
def invertH (self : CLC) (w : World) : CLC × World :=
  clcInit w (customNegate (w.condOf self))

/-- Wrap a list of operand nodes as handles, left to right. -/
def wrapAll (w : World) : List Term → List CLC × World
  | [] => ([], w)
  | t :: rest =>
    let r := clcInit w t
    let r2 := wrapAll r.2 rest
    (r.1 :: r2.1, r2.2)

/-- The direct operand nodes of a term (a bit vector has none). -/
def operandTerms : Term → List Term
  | .var _ _ => []
  | .const _ _ => []
  | .band args => args
  | .bor args => args
  | .bnot a => [a]
  | .cmp _ l r => [l, r]

/-- `_get_operands`: wrap each direct operand of the condition as a handle. -/
def getOperands (self : CLC) (w : World) : List CLC × World :=
  wrapAll w (operandTerms (w.condOf self))

/-- `_replace_condition_by_true` (source lines 277-284): a bare symbol handle
is rebound to a fresh numbered variable defined as true (sibling references to
the old symbol are untouched); any other handle's node is replaced by the true
constant everywhere; then reclaim. -/
def replaceConditionByTrue (self : CLC) (w : World) : CLC × World :=
  if is_symbol w self then
    (⟨.id w.counter, self.wid⟩,
      World.cleanupAll ⟨w.wid, (w.counter, .const 1 1) :: w.defs, w.counter + 1⟩)
  else
    (self, World.cleanupAll (w.replaceEverywhere (w.condOf self) (.const 1 1)))

/-- Remove every operand edge of the handle's conjunction node whose sink is
the given node (`get_relation` plus `remove_operand`); the mutation of the
shared node is performed structurally everywhere. -/
def removeOperandEdges (self : CLC) (sink : Term) (w : World) : World :=
  match w.condOf self with
  | .band args => w.replaceEverywhere (.band args) (.band (args.filter fun a => !(beqT a sink)))
  | _ => w

/-- The pair loop of `_replace_subexpressions_by_true`: test each pair for
equivalence and on a match remove the matching operand edges. -/
def replacePairs (self : CLC) : List (CLC × CLC) → World → World
  | [], w => w
  | (s1, s2) :: rest, w =>
    let r := is_equivalent_to s1 s2 w
    let w2 := if r.1 then removeOperandEdges self (r.2.condOf s2) r.2 else r.2
    replacePairs self rest w2

/-- The iteration order of `itertools.product`. -/
def pairsOf {α β : Type} (A : List α) (B : List β) : List (α × β) :=
  A.flatMap fun a => B.map fun b => (a, b)

/-- `_replace_subexpressions_by_true` (source lines 269-275): for every pair
of a given subexpression and a freshly wrapped operand of the condition
(`self.operands` wraps the operands anew), remove equivalent clauses. -/
def replaceSubexpressionsByTrue (self : CLC) (subexprs : List CLC) (w : World) : World :=
  let r := getOperands self w
  replacePairs self (pairsOf subexprs r.1) r.2

/-- The main path of `substitute_by_true` (source lines 250-267), entered when
the whole condition is not collapsed. -/
def substMainPath (self condition : CLC) (w : World) : CLC × World :=
  let r0 := to_cnf self w
  let w0 := r0.2
  if is_true w0 self || is_false w0 self || is_negation w0 self || is_symbol w0 self then
    (self, w0)
  else
    let rc := getOperands condition w0
    let ro := getOperands self rc.2
    let w1 := ro.2
    let numbExpr := if is_conjunction w1 self then ro.1.length else 1
    let numbCond := if is_conjunction w1 condition then rc.1.length else 1
    if numbExpr ≤ numbCond then (self, w1.cleanupAll)
    else
      let subexprs := if numbCond == 1 then [condition] else rc.1
      let w2 := replaceSubexpressionsByTrue self subexprs w1
      let toRemove := (rc.1 ++ ro.1).filterMap fun c =>
        match c.ref with
        | .id k => some k
        | .named _ _ => none
      (self, w2.cleanup toRemove)

/-- `substitute_by_true` (source lines 238-267): collapse the whole condition
to true when it equals or is implied by the proven condition, else remove the
proven clauses from its CNF; the boolean connectives of the source are
short-circuit. -/
def substitute_by_true (self condition : CLC) (w : World) : CLC × World :=
  if is_true w self then substMainPath self condition w
  else if is_equal_to w self condition then replaceConditionByTrue self w
  else
    let r := does_imply condition self w
    if r.1 then replaceConditionByTrue self r.2
    else substMainPath self condition r.2

/-- A pseudo-code expression (the decompiler's expression model, external): a
variable carrying an SSA name, or a constant. -/
inductive PExpr
  | pvar (name : String) (ssa : String) (size : Nat)
  | pconst (value : Int) (size : Nat)
deriving DecidableEq, Repr

def PExpr.psize : PExpr → Nat
  | .pvar _ _ s => s
  | .pconst _ s => s

/-- A pseudo-code comparison (`pseudo.Condition`): an operator plus operands. -/
structure PCond where
  k : CmpK
  left : PExpr
  right : PExpr
deriving DecidableEq, Repr

/-- `_variable_name_for`: the synthetic graph-variable name of a
pseudo-expression, from its text plus its SSA names (constants are never
named). -/
def nameFor : PExpr → String
  | .pvar n ssa _ => n ++ "," ++ ssa
  | .pconst _ _ => "#const"

/-- The operand encoding of `_get_custom_condition_of`: a constant lowers to a
graph constant, anything else to the synthetic named bit vector. -/
def encodePExpr (e : PExpr) (sz : Nat) : Term :=
  match e with
  | .pconst v _ => .const v sz
  | .pvar n ssa s => .var (nameFor (.pvar n ssa s)) sz

/-- `_get_custom_condition_of` (source lines 526-541): lower one pseudo
comparison to its graph encoding; the width is the larger operand width,
minimum 1 (the width rule). -/
def encodePCond (c : PCond) : Term :=
  let sz := max (max c.left.psize c.right.psize) 1
  .cmp c.k (encodePExpr c.left sz) (encodePExpr c.right sz)

/-- The condition registry (`ConditionHandler`, external collaborator,
modelled from the spec): for each symbol name its pseudo condition and its
graph encoding, plus the counter minting fresh symbols. -/
structure CondHandler where
  entries : List (String × PCond × Term)
  fresh : Nat
deriving Repr

def CondHandler.conditionOf (ch : CondHandler) (sym : String) : Option PCond :=
  (lookupS ch.entries sym).map Prod.fst

def CondHandler.encodingOf (ch : CondHandler) (sym : String) : Option Term :=
  (lookupS ch.entries sym).map Prod.snd

/-- `add_condition` — modelled from the spec: register a new pseudo condition
and return its freshly minted symbol. -/
def CondHandler.addCondition (ch : CondHandler) (c : PCond) : String × CondHandler :=
  let n := "x#" ++ Nat.repr (ch.fresh + 1)
  (n, ⟨ch.entries ++ [(n, c, encodePCond c)], ch.fresh + 1⟩)

/-- Record a compared pseudo-expression under its synthetic name (constants
are skipped; re-insertion of the same key is the identity). -/
def addCompared (m : List (String × PExpr)) (e : PExpr) : List (String × PExpr) :=
  match e with
  | .pconst _ _ => m
  | .pvar n ssa s =>
    if (lookupS m (nameFor (.pvar n ssa s))).isSome then m
    else m ++ [(nameFor (.pvar n ssa s), .pvar n ssa s)]

/-- `_replace_symbol` (source lines 365-379): substitute one symbol by its
registered encoding inside the copied condition's definition (the source
rewires the operand edges of the symbol's parents within the copied formula's
nodes; structurally that is substitution inside this definition). -/
def replaceSymbolIn (w : World) (copied : CLC) (sym : String) (enc : Term) : World :=
  match copied.ref with
  | .id k => w.update k (substT (.var sym 1) enc)
  | .named _ _ => w

/-- The symbol loop of `_replace_symbols_by_real_conditions`: collect the
compared expressions of each symbol's registered condition and substitute the
symbol by its encoding. -/
def replSymsStep (ch : CondHandler) (copied : CLC) :
    List String → World → List (String × PExpr) → World × List (String × PExpr)
  | [], w, m => (w, m)
  | sym :: rest, w, m =>
    match ch.conditionOf sym, ch.encodingOf sym with
    | some pc, some enc =>
      let m1 := addCompared (addCompared m pc.left) pc.right
      replSymsStep ch copied rest (replaceSymbolIn w copied sym enc) m1
    | _, _ => replSymsStep ch copied rest w m

/-- `_replace_symbols_by_real_conditions` (source lines 346-363): build the
parallel real formula on a fresh copy of the condition and collect the
compared pseudo-expressions. -/
def replaceSymbolsByRealConditions (self : CLC) (ch : CondHandler) (w : World) :
    (CLC × World) × List (String × PExpr) :=
  let t := w.condOf self
  let rc := clcInit w t
  let r := replSymsStep ch rc.1 (termSymsT t) (rc.2.freeWorldCondition rc.1.ref) []
  ((rc.1, r.1), r.2)

/-- The variable names compared by an encoding node. -/
def encOperandNames : Term → List String
  | .cmp _ l r =>
    (match l with | .var n _ => [n] | _ => []) ++
      (match r with | .var n _ => [n] | _ => [])
  | _ => []

/-- The replacement dictionary of `_replace_real_conditions_by_symbols`: every
registered encoding that compares one of the substituted expressions, mapped
to its symbol node. -/
def replacementDict (ch : CondHandler) (compared : List (String × PExpr)) :
    List (Term × Term) :=
  ch.entries.filterMap fun e =>
    if (encOperandNames e.2.2).any (fun n => (lookupS compared n).isSome) then
      some (e.2.2, .var e.1 1)
    else none

/-- Match a comparison (structurally, then negated) against the replacement
dictionary, item by item. -/
def findRepl : List (Term × Term) → Term → Term → Option Term
  | [], _, _ => none
  | (c, s) :: rest, op, nop =>
    if beqT c op then some s
    else if beqT c nop then some (.bnot s)
    else findRepl rest op nop

/-- Rebuild the pseudo operand of an unmatched comparison: a substituted
expression is restored, anything else must be a constant (the source asserts
this; the fallback is unreachable). -/
def reconstructPExpr (compared : List (String × PExpr)) : Term → PExpr
  | .var n s =>
    match lookupS compared n with
    | some e => e
    | none => .pconst 0 s
  | .const v s => .pconst (toSigned (toUnsigned v s) s) s
  | _ => .pconst 0 1

/-- The per-operand body of `_replace_real_conditions_by_symbols`: splice in
the matched symbol, its negation, or a newly registered symbol. -/
def spliceOne (repl : List (Term × Term)) (compared : List (String × PExpr))
    (ch : CondHandler) (w : World) (op : Term) : World × CondHandler :=
  match findRepl repl op (negateCmp op) with
  | some s => (w.replaceEverywhere op s, ch)
  | none =>
    match op with
    | .cmp k l r =>
      let pc : PCond := ⟨k, reconstructPExpr compared l, reconstructPExpr compared r⟩
      let r2 := ch.addCondition pc
      (w.replaceEverywhere op (.var r2.1 1), r2.2)
    | _ => (w, ch)

def spliceAll (repl : List (Term × Term)) (compared : List (String × PExpr)) :
    List Term → World → CondHandler → World × CondHandler
  | [], w, ch => (w, ch)
  | op :: rest, w, ch =>
    let r := spliceOne repl compared ch w op
    spliceAll repl compared rest r.1 r.2

/-- `_replace_real_conditions_by_symbols` (source lines 309-344): walk the
comparison nodes of the simplified real formula and replace each by an
existing symbol, a negated existing symbol, or a freshly registered one. -/
def replaceRealCondsBySymbols (realC : CLC) (compared : List (String × PExpr))
    (ch : CondHandler) (w : World) : World × CondHandler :=
  let nonLogic := dedupT (cmpSubT (w.condOf realC))
  spliceAll (replacementDict ch compared) compared nonLogic w ch

/-- The value computed by `does_imply` as a function of the two dereferenced
conditions: whether the simplifier collapses `NOT(self) OR other` to the true
constant. -/
def impliesTermB (x y : Term) : Bool :=
  isTrueT (simplifyTerm (.bor [customNegate x, y]))

/-- The value computed by `is_equivalent_to` as a function of the two
dereferenced conditions: mutual implication. -/
def equivTermB (x y : Term) : Bool := impliesTermB x y && impliesTermB y x

/-- Well-formedness of the allocation counter: every bound numbered variable
is below it (all worlds built by the API maintain this). -/
def WFdefs (w : World) : Prop := ∀ p ∈ w.defs, p.1 < w.counter

/-- A handle whose numbered reference (if any) is below the given counter. -/
def refBelow (c : Nat) (h : CLC) : Prop :=
  match h.ref with
  | .named _ _ => True
  | .id k => k < c

/-- A live handle: a bare symbol, or a numbered variable that has a
definition. -/
def liveHandle (w : World) (h : CLC) : Prop :=
  is_symbol w h = true ∨ (match h.ref with
    | .named _ _ => False
    | .id k => (lookupN w.defs k).isSome = true)

/-- A handle that dereferences to `t` in `w` and keeps doing so under the
operations of the substitution algorithm: it is a named variable read
directly, or an in-range numbered variable bound to `t`. -/
def readsStable (w : World) (h : CLC) (t : Term) : Prop :=
  (∃ n s, h.ref = VarRef.named n s ∧ t = Term.var n s) ∨
  (∃ k, h.ref = VarRef.id k ∧ k < w.counter ∧ lookupN w.defs k = some t)

/-- `remove_redundancy` (source lines 286-307): skip literals and constants;
otherwise build the parallel real formula, simplify it numerically, re-lift
its comparisons to symbols, splice the rebuilt formula in place of the
original node, and reclaim. -/
def remove_redundancy (self : CLC) (ch : CondHandler) (w : World) :
    CLC × World × CondHandler :=
  if is_literal w self || is_true w self || is_false w self then (self, w, ch)
  else
    let r1 := replaceSymbolsByRealConditions self ch w
    let realC := r1.1.1
    let w1 := r1.1.2.freeWorldCondition realC.ref
    let r2 := simplifyCLC realC w1
    let r3 := replaceRealCondsBySymbols realC r1.2 ch r2.2
    let w4 := r3.1.replaceEverywhere (r3.1.condOf self) (r3.1.condOf realC)
    (self, w4.cleanupAll, r3.2)

/-- The registered comparison `x < 10` of the redundancy-removal example, over
a 4-bit pseudo variable `x`. -/
def exCondLt : PCond := ⟨CmpK.ult, PExpr.pvar "x" "x0" 4, PExpr.pconst 10 4⟩

/-- The registered comparison `x == 5` of the redundancy-removal example. -/
def exCondEq : PCond := ⟨CmpK.eq, PExpr.pvar "x" "x0" 4, PExpr.pconst 5 4⟩

/-- A registry mapping symbol `x1` to `x < 10` and symbol `x2` to `x == 5`. -/
def exHandler : CondHandler :=
  ⟨[("x1", exCondLt, encodePCond exCondLt), ("x2", exCondEq, encodePCond exCondEq)], 2⟩

/-- A world whose only definition binds the formula `x1 AND x2`. -/
def exWorld : World := ⟨0, [(0, Term.band [Term.var "x1" 1, Term.var "x2" 1])], 1⟩

/-- The handle on the formula `x1 AND x2`. -/
def exSelf : CLC := ⟨VarRef.id 0, 0⟩

/-! ## Infrastructure lemmas -/

theorem sizeT_pos : ∀ t, 0 < sizeT t := by
  intro t; cases t <;> simp [sizeT]

theorem sizeT_le_of_mem {x : Term} : ∀ {xs : List Term}, x ∈ xs → sizeT x ≤ sizeTL xs := by
  intro xs h
  induction xs with
  | nil => cases h
  | cons a r ih =>
    rcases List.mem_cons.mp h with h1 | h2
    · subst h1; simp [sizeTL]
    · have := ih h2; simp [sizeTL]; omega

theorem termRecAux (P : Term → Prop) (step : ∀ t, (∀ s, sizeT s < sizeT t → P s) → P t) :
    ∀ n t, sizeT t ≤ n → P t := by
  intro n
  induction n with
  | zero => intro t ht; exact absurd ht (by have := sizeT_pos t; omega)
  | succ n ih => intro t ht; exact step t (fun s hs => ih s (by omega))

theorem termRec (P : Term → Prop) (step : ∀ t, (∀ s, sizeT s < sizeT t → P s) → P t) :
    ∀ t, P t :=
  fun t => termRecAux P step (sizeT t) t (Nat.le_refl _)

theorem beqTL_sound :
    ∀ (xs : List Term), (∀ x ∈ xs, ∀ u, beqT x u = true ↔ x = u) →
      ∀ ys, beqTL xs ys = true ↔ xs = ys := by
  intro xs
  induction xs with
  | nil => intro _ ys; cases ys <;> simp [beqTL]
  | cons a r ih =>
    intro h ys
    cases ys with
    | nil => simp [beqTL]
    | cons b s =>
      have h1 := h a (List.mem_cons_self a r) b
      have h2 := ih (fun x hx u => h x (List.mem_cons_of_mem a hx) u) s
      simp [beqTL, Bool.and_eq_true, h1, h2]

theorem beqT_sound : ∀ t u, beqT t u = true ↔ t = u := by
  refine termRec (fun t => ∀ u, beqT t u = true ↔ t = u) ?_
  intro t ih u
  cases t with
  | var n1 s1 => cases u <;> simp [beqT]
  | const v1 s1 => cases u <;> simp [beqT]
  | band a1 =>
    cases u <;> simp [beqT]
    case band a2 =>
      exact beqTL_sound a1
        (fun x hx u => ih x (by have := sizeT_le_of_mem hx; simp [sizeT]; omega) u) a2
  | bor a1 =>
    cases u <;> simp [beqT]
    case bor a2 =>
      exact beqTL_sound a1
        (fun x hx u => ih x (by have := sizeT_le_of_mem hx; simp [sizeT]; omega) u) a2
  | bnot a =>
    cases u <;> simp [beqT]
    case bnot b => exact ih a (by simp [sizeT]) b
  | cmp k1 l1 r1 =>
    cases u <;> simp [beqT]
    case cmp k2 l2 r2 =>
      rw [ih l1 (by simp only [sizeT]; omega) l2, ih r1 (by simp only [sizeT]; omega) r2]
      tauto

theorem beqT_refl (t : Term) : beqT t t = true := (beqT_sound t t).mpr rfl

theorem beqT_false_of_ne {t u : Term} (h : t ≠ u) : beqT t u = false := by
  rcases hb : beqT t u with _ | _
  · rfl
  · exact absurd ((beqT_sound t u).mp hb) h

theorem substT_root {old t : Term} (next : Term) (h : beqT t old = true) :
    substT old next t = next := by
  cases t <;> simp [substT, h]

theorem substTL_congr {old next : Term} :
    ∀ {args : List Term}, (∀ a ∈ args, substT old next a = a) → substTL old next args = args := by
  intro args h
  induction args with
  | nil => rfl
  | cons a r ih =>
    simp [substTL, h a (List.mem_cons_self a r), ih fun x hx => h x (List.mem_cons_of_mem a hx)]

theorem noAndTL_mem : ∀ {args : List Term}, noAndTL args = true → ∀ a ∈ args, noAndT a = true := by
  intro args h a ha
  induction args with
  | nil => cases ha
  | cons b r ih =>
    rw [noAndTL, Bool.and_eq_true] at h
    rcases List.mem_cons.mp ha with h1 | h2
    · subst h1; exact h.1
    · exact ih h.2 h2

theorem beqT_band_of_noAnd {t : Term} (xs : List Term) (h : noAndT t = true) :
    beqT t (.band xs) = false := by
  cases t <;> simp [beqT] <;> simp [noAndT] at h

theorem substT_noAnd :
    ∀ t, noAndT t = true → ∀ (xs : List Term) (next : Term), substT (.band xs) next t = t := by
  refine termRec (fun t => noAndT t = true → ∀ xs next, substT (.band xs) next t = t) ?_
  intro t ih ht xs next
  cases t with
  | var n s => simp [substT, beqT]
  | const v s => simp [substT, beqT]
  | band a => simp [noAndT] at ht
  | bor a =>
    rw [substT, beqT_band_of_noAnd xs ht]
    simp [noAndT] at ht
    exact congrArg Term.bor (substTL_congr fun x hx =>
      ih x (by have := sizeT_le_of_mem hx; simp only [sizeT]; omega) (noAndTL_mem ht x hx) xs next)
  | bnot a =>
    rw [substT, beqT_band_of_noAnd xs ht]
    simp [noAndT] at ht
    simp [ih a (by simp only [sizeT]; omega) ht xs next]
  | cmp k l r =>
    rw [substT, beqT_band_of_noAnd xs ht]
    simp [noAndT, Bool.and_eq_true] at ht
    simp [ih l (by simp only [sizeT]; omega) ht.1 xs next,
      ih r (by simp only [sizeT]; omega) ht.2 xs next]

theorem substT_same : ∀ (t x : Term), substT t t x = x := by
  intro t
  refine termRec (fun x => substT t t x = x) ?_
  intro x ih
  rcases hb : beqT x t with _ | _
  · cases x with
    | var n s => simp [substT, hb]
    | const v s => simp [substT, hb]
    | band a =>
      rw [substT, hb]
      simp only [Bool.false_eq_true, if_false]
      exact congrArg Term.band (substTL_congr fun y hy =>
        ih y (by have := sizeT_le_of_mem hy; simp only [sizeT]; omega))
    | bor a =>
      rw [substT, hb]
      simp only [Bool.false_eq_true, if_false]
      exact congrArg Term.bor (substTL_congr fun y hy =>
        ih y (by have := sizeT_le_of_mem hy; simp only [sizeT]; omega))
    | bnot a =>
      rw [substT, hb]
      simp only [Bool.false_eq_true, if_false]
      simp [ih a (by simp only [sizeT]; omega)]
    | cmp k l r =>
      rw [substT, hb]
      simp only [Bool.false_eq_true, if_false]
      simp [ih l (by simp only [sizeT]; omega), ih r (by simp only [sizeT]; omega)]
  · have hx := (beqT_sound x t).mp hb
    subst hx
    exact substT_root x hb

theorem lookupN_cons_self {α : Type} (l : List (Nat × α)) (k : Nat) (t : α) :
    lookupN ((k, t) :: l) k = some t := by
  simp [lookupN]

theorem lookupN_cons_ne {α : Type} (l : List (Nat × α)) {k j : Nat} (t : α) (h : k ≠ j) :
    lookupN ((k, t) :: l) j = lookupN l j := by
  simp [lookupN, h]

theorem eraseFirstDef_cons_self (l : List (Nat × Term)) (k : Nat) (t : Term) :
    eraseFirstDef ((k, t) :: l) k = l := by
  simp [eraseFirstDef]

theorem lookupN_updateFirst_self (f : Term → Term) :
    ∀ (l : List (Nat × Term)) (k : Nat), lookupN (updateFirstDef f l k) k = (lookupN l k).map f := by
  intro l
  induction l with
  | nil => intro k; simp [updateFirstDef, lookupN]
  | cons p r ih =>
    intro k
    by_cases h : p.1 = k
    · subst h; simp [updateFirstDef, lookupN]
    · simp [updateFirstDef, lookupN, h, ih k]

theorem lookupN_updateFirst_ne (f : Term → Term) :
    ∀ (l : List (Nat × Term)) {k j : Nat}, j ≠ k → lookupN (updateFirstDef f l k) j = lookupN l j := by
  intro l
  induction l with
  | nil => intro k j _; simp [updateFirstDef]
  | cons p r ih =>
    intro k j hj
    by_cases h : p.1 = k
    · subst h
      have : p.1 ≠ j := fun hh => hj hh.symm
      simp [updateFirstDef, lookupN, this]
    · by_cases h2 : p.1 = j
      · simp [updateFirstDef, lookupN, h, h2, hj]
      · simp [updateFirstDef, lookupN, h, h2, ih hj]

theorem lookupN_map (g : Term → Term) :
    ∀ (l : List (Nat × Term)) (k : Nat),
      lookupN (l.map fun p => (p.1, g p.2)) k = (lookupN l k).map g := by
  intro l
  induction l with
  | nil => intro k; simp [lookupN]
  | cons p r ih =>
    intro k
    by_cases h : p.1 = k
    · simp [lookupN, h]
    · simp [lookupN, h, ih k]

theorem lookupN_eraseFirst_ne :
    ∀ (l : List (Nat × Term)) {k j : Nat}, j ≠ k → lookupN (eraseFirstDef l k) j = lookupN l j := by
  intro l
  induction l with
  | nil => intro k j _; simp [eraseFirstDef]
  | cons p r ih =>
    intro k j hj
    by_cases h : p.1 = k
    · subst h
      have : p.1 ≠ j := fun hh => hj hh.symm
      simp [eraseFirstDef, lookupN, this]
    · by_cases h2 : p.1 = j
      · simp [eraseFirstDef, lookupN, h, h2, hj]
      · simp [eraseFirstDef, lookupN, h, h2, ih hj]

/-- `does_imply` computes the pure implication reading and restores the
definition store, advancing only the allocation counter. -/
theorem does_imply_eq (a b : CLC) (w : World) :
    does_imply a b w =
      (impliesTermB (w.condOf a) (w.condOf b), ⟨w.wid, w.defs, w.counter + 1⟩) := by
  unfold does_imply impliesTermB
  simp [World.update, World.cleanup, World.freeWorldCondition, is_true, World.condOf,
    updateFirstDef, eraseFirstDef, lookupN]

/-- `is_equivalent_to` computes the pure equivalence reading and restores the
definition store, advancing only the allocation counter. -/
theorem is_equivalent_to_eq (a b : CLC) (w : World) :
    is_equivalent_to a b w =
      (equivTermB (w.condOf a) (w.condOf b), ⟨w.wid, w.defs, w.counter + 2⟩) := by
  unfold is_equivalent_to
  simp only [does_imply_eq]
  rfl

theorem WFdefs_bump {w : World} (h : WFdefs w) :
    WFdefs ⟨w.wid, w.defs, w.counter + 1⟩ := by
  intro p hp
  have := h p hp
  simp only at this ⊢
  omega

theorem mem_of_lookupN : ∀ {l : List (Nat × Term)} {j : Nat} {t : Term},
    lookupN l j = some t → (j, t) ∈ l := by
  intro l
  induction l with
  | nil => intro j t h; simp [lookupN] at h
  | cons p r ih =>
    intro j t h
    rw [lookupN] at h
    by_cases hp : p.1 = j
    · simp only [hp, if_true, Option.some.injEq] at h
      have hpt : p = (j, t) := Prod.ext hp h
      rw [hpt]
      exact List.mem_cons_self _ _
    · simp only [hp, if_false] at h
      exact List.mem_cons_of_mem _ (ih h)

theorem lookupN_lt_counter {w : World} {j : Nat} {t : Term}
    (hwf : WFdefs w) (h : lookupN w.defs j = some t) : j < w.counter :=
  hwf _ (mem_of_lookupN h)

/-- A handle whose reference is a numbered variable below the counter (or a
named variable) dereferences identically after a fresh definition is added. -/
theorem condOf_cons_fresh {w : World} {c : CLC} (t : Term)
    (h : ∀ j, c.ref = VarRef.id j → j < w.counter) :
    World.condOf ⟨w.wid, (w.counter, t) :: w.defs, w.counter + 1⟩ c = w.condOf c := by
  cases href : c.ref with
  | named n s => simp [World.condOf, href]
  | id j =>
    have hj := h j href
    simp [World.condOf, href, lookupN_cons_ne _ _ (by omega : w.counter ≠ j)]

/-- `_replace_condition_by_true` makes the handle true: a symbol handle is
rebound to a fresh numbered variable defined as the true constant and every
sibling reference to the old symbol is untouched; any other live handle's node
becomes the true constant everywhere. -/
theorem replaceConditionByTrue_spec (self : CLC) (w : World)
    (hwf : WFdefs w) (hlive : liveHandle w self) :
    is_true (replaceConditionByTrue self w).2 (replaceConditionByTrue self w).1 = true ∧
    (is_symbol w self = true →
      (replaceConditionByTrue self w).1.ref = VarRef.id w.counter ∧
      (replaceConditionByTrue self w).2.condOf (replaceConditionByTrue self w).1 =
        Term.const 1 1 ∧
      ∀ sib : CLC, sib.ref = self.ref →
        (replaceConditionByTrue self w).2.condOf sib = w.condOf sib) ∧
    (is_symbol w self = false →
      (replaceConditionByTrue self w).1 = self ∧
      (replaceConditionByTrue self w).2.condOf self = Term.const 1 1) := by
  by_cases hs : is_symbol w self = true
  · have hres : replaceConditionByTrue self w =
        (⟨.id w.counter, self.wid⟩,
          ⟨w.wid, (w.counter, .const 1 1) :: w.defs, w.counter + 1⟩) := by
      unfold replaceConditionByTrue
      simp [hs, World.cleanupAll]
    rw [hres]
    refine ⟨?_, fun _ => ⟨rfl, ?_, ?_⟩, fun hn => absurd hs (by simp [hn])⟩
    · simp [is_true, World.condOf, lookupN_cons_self, isTrueT, toUnsigned]
    · simp [World.condOf, lookupN_cons_self]
    · intro sib hsib
      refine condOf_cons_fresh _ (fun j hj => ?_)
      rw [hsib] at hj
      have hcond : w.condOf self = (lookupN w.defs j).getD (.const 0 1) := by
        simp [World.condOf, hj]
      rw [is_symbol, hcond] at hs
      rcases hl : lookupN w.defs j with _ | t
      · rw [hl] at hs
        simp [isSymbolT] at hs
      · exact lookupN_lt_counter hwf hl
  · have hs0 : is_symbol w self = false := by simp at hs; exact hs
    have hres : replaceConditionByTrue self w =
        (self, w.replaceEverywhere (w.condOf self) (.const 1 1)) := by
      unfold replaceConditionByTrue
      simp [hs0, World.cleanupAll]
    rw [hres]
    rcases hlive with hsym | hrest
    · exact absurd hsym hs
    · cases href : self.ref with
      | named n s => rw [href] at hrest; exact absurd hrest (by simp)
      | id j =>
        rw [href] at hrest
        simp only at hrest
        rcases hl : lookupN w.defs j with _ | t
        · rw [hl] at hrest; simp at hrest
        · have hcond : w.condOf self = t := by simp [World.condOf, href, hl]
          have hnew : (w.replaceEverywhere (w.condOf self) (.const 1 1)).condOf self =
              Term.const 1 1 := by
            rw [hcond]
            simp only [World.condOf, href, World.replaceEverywhere, lookupN_map, hl]
            simp only [Option.map_some', Option.getD_some]
            exact substT_root _ (beqT_refl t)
          exact ⟨by rw [is_true, hnew]; rfl, fun ht => absurd ht (by rw [hs0]; simp),
            fun _ => ⟨rfl, hnew⟩⟩

theorem live_ref_lt {w : World} {x : CLC} (hwf : WFdefs w) (hlive : liveHandle w x) :
    ∀ j, x.ref = VarRef.id j → j < w.counter := by
  intro j hj
  rcases hlive with hsym | hrest
  · rw [is_symbol] at hsym
    have hcond : w.condOf x = (lookupN w.defs j).getD (.const 0 1) := by
      simp [World.condOf, hj]
    rw [hcond] at hsym
    rcases hl : lookupN w.defs j with _ | t
    · rw [hl] at hsym; simp [isSymbolT] at hsym
    · exact lookupN_lt_counter hwf hl
  · rw [hj] at hrest
    simp only at hrest
    rcases hl : lookupN w.defs j with _ | t
    · rw [hl] at hrest; simp at hrest
    · exact lookupN_lt_counter hwf hl

theorem customNegate_of_not_neg {t : Term} (h : isNegT t = false) :
    customNegate t = Term.bnot t := by
  cases t <;> simp [customNegate] <;> simp [isNegT] at h

/-- A freshly created handle dereferences to the node it wraps. -/
theorem clcInit_condOf (w : World) (t : Term) :
    (clcInit w t).2.condOf (clcInit w t).1 = t := by
  cases t <;> simp [clcInit, World.condOf, lookupN_cons_self]

/-- Creating a handle does not change what an existing in-range handle
dereferences to. -/
theorem clcInit_condOf_other (w : World) (t : Term) {x : CLC}
    (h : ∀ j, x.ref = VarRef.id j → j < w.counter) :
    (clcInit w t).2.condOf x = w.condOf x := by
  cases t
  case var => rfl
  all_goals exact condOf_cons_fresh _ h

/-- C1: for every live formula handle `self` that is not the true-constant, if
`self` is structurally equal to `provenTrue` or `provenTrue` implies `self`,
then `substitute_by_true(self, provenTrue)` collapses `self` to the
true-constant; when `self` is a bare symbol this rebinds the handle to a fresh
numbered variable defined as true, leaving every sibling reference to the old
symbol untouched, and otherwise it replaces `self`'s node by the
true-constant.  In particular `substitute_by_true(x, x)` collapses every
non-true `x` to true, since structural self-equality always holds. -/
theorem C1_substitute_by_true_collapses (w : World) (self pt : CLC)
    (hwf : WFdefs w) (hlive : liveHandle w self)
    (hT : is_true w self = false)
    (h : is_equal_to w self pt = true ∨
      impliesTermB (w.condOf pt) (w.condOf self) = true) :
    is_true (substitute_by_true self pt w).2 (substitute_by_true self pt w).1 = true ∧
    (is_symbol w self = true →
      (∃ k, (substitute_by_true self pt w).1.ref = VarRef.id k) ∧
      (substitute_by_true self pt w).2.condOf (substitute_by_true self pt w).1 =
        Term.const 1 1 ∧
      ∀ sib : CLC, sib.ref = self.ref →
        (substitute_by_true self pt w).2.condOf sib = w.condOf sib) ∧
    (is_symbol w self = false →
      (substitute_by_true self pt w).1 = self ∧
      (substitute_by_true self pt w).2.condOf self = Term.const 1 1) := by
  by_cases heq : is_equal_to w self pt = true
  · have hres : substitute_by_true self pt w = replaceConditionByTrue self w := by
      unfold substitute_by_true
      simp [hT, heq]
    rw [hres]
    have hspec := replaceConditionByTrue_spec self w hwf hlive
    exact ⟨hspec.1,
      fun hs => ⟨⟨w.counter, (hspec.2.1 hs).1⟩, (hspec.2.1 hs).2.1, (hspec.2.1 hs).2.2⟩,
      fun hs => hspec.2.2 hs⟩
  · have himp : impliesTermB (w.condOf pt) (w.condOf self) = true := by
      rcases h with h | h
      · exact absurd h heq
      · exact h
    have heq0 : is_equal_to w self pt = false := by
      rcases hb : is_equal_to w self pt with _ | _
      · rfl
      · exact absurd hb heq
    have hres : substitute_by_true self pt w =
        replaceConditionByTrue self ⟨w.wid, w.defs, w.counter + 1⟩ := by
      unfold substitute_by_true
      rw [does_imply_eq]
      simp [hT, heq0, himp]
    rw [hres]
    have hspec := replaceConditionByTrue_spec self ⟨w.wid, w.defs, w.counter + 1⟩
      (WFdefs_bump hwf) hlive
    exact ⟨hspec.1,
      fun hs => ⟨⟨w.counter + 1, (hspec.2.1 hs).1⟩, (hspec.2.1 hs).2.1, (hspec.2.1 hs).2.2⟩,
      fun hs => hspec.2.2 hs⟩

/-- Witness for C1: `substitute_by_true(x, x)` on a bare non-true symbol
collapses it to true. -/
theorem C1_witness :
    WFdefs ⟨0, [], 0⟩ ∧ liveHandle ⟨0, [], 0⟩ ⟨VarRef.named "a" 1, 0⟩ ∧
    is_true ⟨0, [], 0⟩ ⟨VarRef.named "a" 1, 0⟩ = false ∧
    is_equal_to ⟨0, [], 0⟩ ⟨VarRef.named "a" 1, 0⟩ ⟨VarRef.named "a" 1, 0⟩ = true ∧
    is_true
      (substitute_by_true ⟨VarRef.named "a" 1, 0⟩ ⟨VarRef.named "a" 1, 0⟩ ⟨0, [], 0⟩).2
      (substitute_by_true ⟨VarRef.named "a" 1, 0⟩ ⟨VarRef.named "a" 1, 0⟩ ⟨0, [], 0⟩).1 =
      true :=
  ⟨fun p hp => absurd hp (List.not_mem_nil p), Or.inl rfl, rfl, rfl,
    (C1_substitute_by_true_collapses ⟨0, [], 0⟩ ⟨VarRef.named "a" 1, 0⟩
      ⟨VarRef.named "a" 1, 0⟩ (fun p hp => absurd hp (List.not_mem_nil p)) (Or.inl rfl) rfl
      (Or.inl rfl)).1⟩

/-- C6: `does_imply` builds `NOT(self) OR other` as a disposable temporary,
runs the generic simplifier on it, returns whether the simplified result is
the true-constant, and reclaims the temporary regardless of the answer: the
definition store afterwards is exactly the one before. -/
theorem C6_does_imply_spec (w : World) (a b : CLC) (hw : a.wid = b.wid) :
    (does_imply a b w).1 =
      isTrueT (simplifyTerm (Term.bor [customNegate (w.condOf a), w.condOf b])) ∧
    (does_imply a b w).2.defs = w.defs ∧
    (does_imply a b w).2.wid = w.wid := by
  rw [does_imply_eq]
  exact ⟨rfl, rfl, rfl⟩

/-- Witness for C6 at two symbols of the same graph over the empty store. -/
theorem C6_witness :
    (⟨VarRef.named "a" 1, 0⟩ : CLC).wid = (⟨VarRef.named "b" 1, 0⟩ : CLC).wid ∧
    (does_imply ⟨VarRef.named "a" 1, 0⟩ ⟨VarRef.named "b" 1, 0⟩ ⟨0, [], 0⟩).2.defs = [] :=
  ⟨rfl, (C6_does_imply_spec ⟨0, [], 0⟩ ⟨VarRef.named "a" 1, 0⟩ ⟨VarRef.named "b" 1, 0⟩
    rfl).2.1⟩

/-- C7: `NOT` applied to a formula that is already a negation returns that
negation's operand instead of wrapping again, so `NOT(NOT(x))` returns a
handle structurally equal to `x` whenever `x` is not itself a negation
(atomic or compound). -/
theorem C7_invert_double_negation (w : World) (x : CLC)
    (hwf : WFdefs w) (hlive : liveHandle w x) :
    (∀ t, w.condOf x = Term.bnot t →
      ((invertH x w).2).condOf (invertH x w).1 = t) ∧
    (isNegT (w.condOf x) = false →
      is_equal_to (invertH (invertH x w).1 (invertH x w).2).2
        (invertH (invertH x w).1 (invertH x w).2).1 x = true) := by
  constructor
  · intro t ht
    rw [invertH, ht]
    cases t <;> simp [customNegate, clcInit, World.condOf, lookupN_cons_self]
  · intro hneg
    have hrb := live_ref_lt hwf hlive
    have h1 : invertH x w = (⟨.id w.counter, w.wid⟩,
        ⟨w.wid, (w.counter, .bnot (w.condOf x)) :: w.defs, w.counter + 1⟩) := by
      rw [invertH, customNegate_of_not_neg hneg]
      rfl
    rw [h1]
    have h2 : World.condOf ⟨w.wid, (w.counter, .bnot (w.condOf x)) :: w.defs, w.counter + 1⟩
        (⟨.id w.counter, w.wid⟩ : CLC) = .bnot (w.condOf x) := by
      simp [World.condOf, lookupN_cons_self]
    rw [invertH, h2]
    simp only [customNegate]
    have hxA : World.condOf ⟨w.wid, (w.counter, .bnot (w.condOf x)) :: w.defs, w.counter + 1⟩
        x = w.condOf x :=
      condOf_cons_fresh _ hrb
    have hother : (clcInit ⟨w.wid, (w.counter, .bnot (w.condOf x)) :: w.defs, w.counter + 1⟩
        (w.condOf x)).2.condOf x = w.condOf x := by
      rw [clcInit_condOf_other _ _ (fun j hj => Nat.lt_succ_of_lt (hrb j hj)), hxA]
    rw [is_equal_to, clcInit_condOf, hother]
    exact beqT_refl _

/-- Witness for C7 on a bare symbol. -/
theorem C7_witness :
    WFdefs ⟨0, [], 0⟩ ∧ liveHandle ⟨0, [], 0⟩ ⟨VarRef.named "a" 1, 0⟩ ∧
    isNegT (World.condOf ⟨0, [], 0⟩ ⟨VarRef.named "a" 1, 0⟩) = false ∧
    is_equal_to
      (invertH (invertH ⟨VarRef.named "a" 1, 0⟩ ⟨0, [], 0⟩).1
        (invertH ⟨VarRef.named "a" 1, 0⟩ ⟨0, [], 0⟩).2).2
      (invertH (invertH ⟨VarRef.named "a" 1, 0⟩ ⟨0, [], 0⟩).1
        (invertH ⟨VarRef.named "a" 1, 0⟩ ⟨0, [], 0⟩).2).1
      ⟨VarRef.named "a" 1, 0⟩ = true :=
  ⟨fun p hp => absurd hp (List.not_mem_nil p), Or.inl rfl, rfl,
    (C7_invert_double_negation ⟨0, [], 0⟩ ⟨VarRef.named "a" 1, 0⟩
      (fun p hp => absurd hp (List.not_mem_nil p)) (Or.inl rfl)).2 rfl⟩

/-- C8: the n-ary constructors `AND`/`OR` fail with `MismatchedGraph` whenever
the given clauses belong to different term graphs, and require at least one
clause: they fail on an empty clause list. -/
theorem C8_constructors_fail (clauses : List CLC) (w : World) :
    (clauses = [] →
      conjunction_of clauses w = Except.error LogicErr.emptyClauses ∧
      disjunction_of clauses w = Except.error LogicErr.emptyClauses) ∧
    (∀ c0 rest, clauses = c0 :: rest →
      (∃ c ∈ clauses, c.wid ≠ c0.wid) →
      conjunction_of clauses w = Except.error LogicErr.mismatchedGraph ∧
      disjunction_of clauses w = Except.error LogicErr.mismatchedGraph) := by
  constructor
  · intro h; subst h; exact ⟨rfl, rfl⟩
  · intro c0 rest h hex
    subst h
    have hall : ((c0 :: rest).all fun x => x.wid == c0.wid) = false := by
      rcases hex with ⟨c, hc, hne⟩
      rcases hb : (c0 :: rest).all fun x => x.wid == c0.wid with _ | _
      · rfl
      · rw [List.all_eq_true] at hb
        have := hb c hc
        simp only [beq_iff_eq] at this
        exact absurd this hne
    unfold conjunction_of disjunction_of
    simp [hall]

/-- Witness for C8 at two symbols of different graphs. -/
theorem C8_witness :
    (∃ c ∈ [(⟨VarRef.named "a" 1, 0⟩ : CLC), ⟨VarRef.named "b" 1, 1⟩],
      c.wid ≠ (⟨VarRef.named "a" 1, 0⟩ : CLC).wid) ∧
    conjunction_of [(⟨VarRef.named "a" 1, 0⟩ : CLC), ⟨VarRef.named "b" 1, 1⟩] ⟨0, [], 0⟩ =
      Except.error LogicErr.mismatchedGraph :=
  ⟨⟨⟨VarRef.named "b" 1, 1⟩, by simp, by decide⟩,
    ((C8_constructors_fail [(⟨VarRef.named "a" 1, 0⟩ : CLC), ⟨VarRef.named "b" 1, 1⟩]
      ⟨0, [], 0⟩).2 ⟨VarRef.named "a" 1, 0⟩ [⟨VarRef.named "b" 1, 1⟩] rfl
      ⟨⟨VarRef.named "b" 1, 1⟩, by simp, by decide⟩).1⟩

/-- C9: `remove_redundancy` on a handle that is already a literal, the
true-constant, or the false-constant returns the handle with its formula, the
term graph, and the registry unchanged: the algorithm is skipped entirely. -/
theorem C9_remove_redundancy_skips (w : World) (ch : CondHandler) (self : CLC)
    (h : (is_literal w self || is_true w self || is_false w self) = true) :
    remove_redundancy self ch w = (self, w, ch) := by
  unfold remove_redundancy
  simp [h]

/-- Witness for C9 on a bare symbol. -/
theorem C9_witness :
    (is_literal ⟨0, [], 0⟩ ⟨VarRef.named "a" 1, 0⟩ ||
      is_true ⟨0, [], 0⟩ ⟨VarRef.named "a" 1, 0⟩ ||
      is_false ⟨0, [], 0⟩ ⟨VarRef.named "a" 1, 0⟩) = true ∧
    remove_redundancy ⟨VarRef.named "a" 1, 0⟩ ⟨[], 0⟩ ⟨0, [], 0⟩ =
      (⟨VarRef.named "a" 1, 0⟩, ⟨0, [], 0⟩, ⟨[], 0⟩) :=
  ⟨rfl, C9_remove_redundancy_skips ⟨0, [], 0⟩ ⟨[], 0⟩ ⟨VarRef.named "a" 1, 0⟩ rfl⟩

/-- C10: on a handle whose condition is a constant, `is_true` holds exactly
when the unsigned value is nonzero and `is_false` exactly when it is zero,
with no bit-width check (a nonzero constant of any width counts as true);
they are mutually exclusive, exhaustive over constants, and both false on
every non-constant condition. -/
theorem C10_truth_constants (w : World) (c : CLC) :
    (∀ v s, w.condOf c = Term.const v s →
      (is_true w c = true ↔ toUnsigned v s ≠ 0) ∧
      (is_false w c = true ↔ toUnsigned v s = 0)) ∧
    ¬(is_true w c = true ∧ is_false w c = true) ∧
    (isConstT (w.condOf c) = true → is_true w c = true ∨ is_false w c = true) ∧
    (isConstT (w.condOf c) = false → is_true w c = false ∧ is_false w c = false) := by
  refine ⟨?_, ?_, ?_, ?_⟩
  · intro v s h
    rw [is_true, is_false, h]
    constructor
    · simp [isTrueT]
    · simp [isFalseT]
  · rintro ⟨h1, h2⟩
    rw [is_true] at h1
    rw [is_false] at h2
    cases hc : w.condOf c <;> rw [hc] at h1 h2 <;>
      simp [isTrueT, isFalseT] at h1 h2
    exact h1 h2
  · intro h
    rw [is_true, is_false]
    cases hc : w.condOf c <;> rw [hc] at h <;> simp [isConstT] at h
    case const v s =>
      by_cases hz : toUnsigned v s = 0
      · right; simp [isFalseT, hz]
      · left; simp [isTrueT, hz]
  · intro h
    rw [is_true, is_false]
    cases hc : w.condOf c <;> rw [hc] at h <;> simp [isConstT] at h <;>
      simp [isTrueT, isFalseT]

/-- Witness for C10 on a 32-bit nonzero constant: classified as true despite
not being the 1-bit true-constant. -/
theorem C10_witness :
    World.condOf ⟨0, [(0, Term.const 5 32)], 1⟩ ⟨VarRef.id 0, 0⟩ = Term.const 5 32 ∧
    is_true ⟨0, [(0, Term.const 5 32)], 1⟩ ⟨VarRef.id 0, 0⟩ = true :=
  ⟨rfl, ((C10_truth_constants ⟨0, [(0, Term.const 5 32)], 1⟩ ⟨VarRef.id 0, 0⟩).1 5 32
    rfl).1.mpr (by decide)⟩

theorem isLiteralT_litT (l : Lit) : isLiteralT (litT l) = true := by
  rcases l with ⟨n, _ | _⟩ <;> simp [litT, isLiteralT]

theorem isDisjLitsT_litT (l : Lit) : isDisjLitsT (litT l) = true := by
  rcases l with ⟨n, _ | _⟩ <;> simp [litT, isDisjLitsT, isLiteralT]

theorem isDisjLitsT_bor_of_all {args : List Term} (h : args.all isLiteralT = true) :
    isDisjLitsT (.bor args) = true := by
  rw [isDisjLitsT]
  by_cases hl : isLiteralT (Term.bor args) = true
  · rw [if_pos hl]
  · rw [if_neg hl]
    exact h

theorem isCnfFormT_of_disjLits {t : Term} (h : isDisjLitsT t = true) :
    isCnfFormT t = true := by
  have hcond : (isTrueT t || isFalseT t || isDisjLitsT t) = true := by
    rw [h, Bool.or_true]
  rw [isCnfFormT, if_pos hcond]

theorem isCnfFormT_band_of_all {args : List Term} (h : args.all isDisjLitsT = true) :
    isCnfFormT (.band args) = true := by
  rw [isCnfFormT]
  by_cases hcond : (isTrueT (Term.band args) || isFalseT (Term.band args) ||
      isDisjLitsT (Term.band args)) = true
  · rw [if_pos hcond]
  · rw [if_neg hcond]
    exact h

theorem isCnfFormT_not_form {t : Term}
    (hcond : (isTrueT t || isFalseT t || isDisjLitsT t) = false)
    (hconj : isConjOfDisjLits t = false) : isCnfFormT t = false := by
  rw [isCnfFormT, if_neg (by rw [hcond]; simp)]
  exact hconj

theorem isDisjLitsT_clauseToTerm : ∀ {c : List Lit}, c ≠ [] →
    isDisjLitsT (clauseToTerm c) = true := by
  intro c h
  rcases c with _ | ⟨l1, ls⟩
  · exact absurd rfl h
  · rcases ls with _ | ⟨l2, ls2⟩
    · exact isDisjLitsT_litT l1
    · refine isDisjLitsT_bor_of_all ?_
      rw [List.all_eq_true]
      intro x hx
      obtain ⟨l, _, rfl⟩ := List.mem_map.mp hx
      exact isLiteralT_litT l

theorem isCnfFormT_clausesToTerm (cs : List (List Lit)) :
    isCnfFormT (clausesToTerm cs) = true := by
  rcases cs with _ | ⟨c1, cs2⟩
  · rfl
  · rcases ha : (c1 :: cs2).any List.isEmpty with _ | _
    · have hne : ∀ c ∈ c1 :: cs2, c ≠ [] := by
        intro c hc hcc
        subst hcc
        have hx : (c1 :: cs2).any List.isEmpty = true := by
          rw [List.any_eq_true]
          exact ⟨[], hc, rfl⟩
        rw [hx] at ha
        cases ha
      rcases cs2 with _ | ⟨c2, rest⟩
      · have hred : clausesToTerm [c1] = clauseToTerm c1 := by
          unfold clausesToTerm
          simp only [ha, Bool.false_eq_true, if_false]
          rfl
        rw [hred]
        exact isCnfFormT_of_disjLits (isDisjLitsT_clauseToTerm (hne c1 (by simp)))
      · have hred : clausesToTerm (c1 :: c2 :: rest) =
            .band ((c1 :: c2 :: rest).map clauseToTerm) := by
          unfold clausesToTerm
          simp only [ha, Bool.false_eq_true, if_false]
          rfl
        rw [hred]
        refine isCnfFormT_band_of_all ?_
        rw [List.all_eq_true]
        intro x hx
        obtain ⟨c, hc, rfl⟩ := List.mem_map.mp hx
        exact isDisjLitsT_clauseToTerm (hne c hc)
    · have hred : clausesToTerm (c1 :: cs2) = .const 0 1 := by
        unfold clausesToTerm
        simp only [ha, if_true]
        rfl
      rw [hred]
      rfl

/-- C5: `to_cnf` returns the same handle, is a no-op when the formula is
already in CNF form, is idempotent, and afterwards `is_cnf_form` holds (for
the symbolic boolean formulas the canonicalizer operates on). -/
theorem C5_to_cnf_canonicalizes (w : World) (x : CLC)
    (hsym : symbolicT (w.condOf x) = true) :
    (to_cnf x w).1 = x ∧
    (is_cnf_form w x = true → to_cnf x w = (x, w)) ∧
    is_cnf_form (to_cnf x w).2 (to_cnf x w).1 = true ∧
    to_cnf (to_cnf x w).1 (to_cnf x w).2 = to_cnf x w := by
  by_cases hc : is_cnf_form w x = true
  · have hres : to_cnf x w = (x, w) := by
      unfold to_cnf
      simp [hc]
    rw [hres]
    exact ⟨rfl, fun _ => rfl, hc, by unfold to_cnf; simp [hc]⟩
  · have hc0 : is_cnf_form w x = false := by
      rcases hb : is_cnf_form w x with _ | _
      · rfl
      · exact absurd hb hc
    have hres : to_cnf x w = (x, cnfVisit x w) := by
      unfold to_cnf
      simp [hc0, World.freeWorldCondition]
    cases href : x.ref with
    | named n s =>
      exfalso
      have hcv : w.condOf x = .var n s := by simp [World.condOf, href]
      rw [hcv] at hsym
      have hs1 : s = 1 := by simpa [symbolicT] using hsym
      rw [is_cnf_form, hcv, hs1] at hc0
      have hone : isCnfFormT (Term.var n 1) = true := rfl
      rw [hone] at hc0
      cases hc0
    | id k =>
      rcases hl : lookupN w.defs k with _ | t
      · exfalso
        have hcv : w.condOf x = .const 0 1 := by simp [World.condOf, href, hl]
        rw [is_cnf_form, hcv] at hc0
        have hone : isCnfFormT (Term.const 0 1) = true := rfl
        rw [hone] at hc0
        cases hc0
      · have hcond : (cnfVisit x w).condOf x = cnfTermOf t := by
          simp [cnfVisit, href, World.update, World.condOf, lookupN_updateFirst_self, hl]
        have hform : is_cnf_form (cnfVisit x w) x = true := by
          rw [is_cnf_form, hcond]
          exact isCnfFormT_clausesToTerm _
        rw [hres]
        refine ⟨rfl, fun hcc => absurd hcc (by rw [hc0]; simp), hform, ?_⟩
        unfold to_cnf
        simp [hform]

/-- Witness for C5 on the symbolic formula `OR(AND(a, b), c)`, which is not in
CNF form. -/
theorem C5_witness :
    symbolicT (World.condOf ⟨0,
      [(0, Term.bor [Term.band [Term.var "a" 1, Term.var "b" 1], Term.var "c" 1])], 1⟩
      ⟨VarRef.id 0, 0⟩) = true ∧
    is_cnf_form
      (to_cnf ⟨VarRef.id 0, 0⟩ ⟨0,
        [(0, Term.bor [Term.band [Term.var "a" 1, Term.var "b" 1], Term.var "c" 1])], 1⟩).2
      (to_cnf ⟨VarRef.id 0, 0⟩ ⟨0,
        [(0, Term.bor [Term.band [Term.var "a" 1, Term.var "b" 1], Term.var "c" 1])], 1⟩).1 =
      true :=
  ⟨rfl, (C5_to_cnf_canonicalizes ⟨0,
    [(0, Term.bor [Term.band [Term.var "a" 1, Term.var "b" 1], Term.var "c" 1])], 1⟩
    ⟨VarRef.id 0, 0⟩ rfl).2.2.1⟩

/-- C3: `remove_redundancy` applied to the conjunction of two symbols whose
registered real conditions are `x < 10` and `x == 5` over the same pseudo
variable `x` replaces the whole formula by the single existing symbol whose
registered condition is `x == 5`: the symbols are lowered to their numeric
meaning, simplified numerically, and re-lifted to existing symbols, with no
new condition registered. -/
theorem C3_remove_redundancy_example :
    (remove_redundancy exSelf exHandler exWorld).2.1.condOf
      (remove_redundancy exSelf exHandler exWorld).1 = Term.var "x2" 1 ∧
    (remove_redundancy exSelf exHandler exWorld).2.2 = exHandler ∧
    exHandler.conditionOf "x2" = some exCondEq := by
  refine ⟨?_, ?_, ?_⟩ <;> rfl

theorem land_ne_zero_iff {x y : Nat} (hx : x ≤ 1) (hy : y ≤ 1) :
    Nat.land x y ≠ 0 ↔ x ≠ 0 ∧ y ≠ 0 := by
  interval_cases x <;> interval_cases y <;> decide

theorem lor_ne_zero_iff {x y : Nat} (hx : x ≤ 1) (hy : y ≤ 1) :
    Nat.lor x y ≠ 0 ↔ x ≠ 0 ∨ y ≠ 0 := by
  interval_cases x <;> interval_cases y <;> decide

theorem land_le_one {x y : Nat} (hx : x ≤ 1) (hy : y ≤ 1) : Nat.land x y ≤ 1 := by
  interval_cases x <;> interval_cases y <;> decide

theorem lor_le_one {x y : Nat} (hx : x ≤ 1) (hy : y ≤ 1) : Nat.lor x y ≤ 1 := by
  interval_cases x <;> interval_cases y <;> decide

theorem xor_one_ne_zero_iff {y : Nat} (hy : y ≤ 1) : Nat.xor 1 y ≠ 0 ↔ y = 0 := by
  interval_cases y <;> decide

theorem xor_one_le_one {y : Nat} (hy : y ≤ 1) : Nat.xor 1 y ≤ 1 := by
  interval_cases y <;> decide

theorem symbolicTL_mem : ∀ {args : List Term}, symbolicTL args = true →
    ∀ a ∈ args, symbolicT a = true := by
  intro args h a ha
  induction args with
  | nil => cases ha
  | cons b r ih =>
    rw [symbolicTL, Bool.and_eq_true] at h
    rcases List.mem_cons.mp ha with h1 | h2
    · subst h1; exact h.1
    · exact ih h.2 h2

theorem tsize_of_symbolic : ∀ t, symbolicT t = true → tsize t = 1 := by
  refine termRec (fun t => symbolicT t = true → tsize t = 1) ?_
  intro t ih ht
  cases t with
  | var n s => simpa [symbolicT, tsize] using ht
  | const v s => simpa [symbolicT, tsize] using ht
  | band args =>
    cases args with
    | nil => rfl
    | cons a r =>
      rw [symbolicT] at ht
      have ha := symbolicTL_mem ht a (List.mem_cons_self a r)
      rw [tsize]
      exact ih a (by have := sizeT_le_of_mem (List.mem_cons_self a r); simp only [sizeT]; omega) ha
  | bor args =>
    cases args with
    | nil => rfl
    | cons a r =>
      rw [symbolicT] at ht
      have ha := symbolicTL_mem ht a (List.mem_cons_self a r)
      rw [tsize]
      exact ih a (by have := sizeT_le_of_mem (List.mem_cons_self a r); simp only [sizeT]; omega) ha
  | bnot a =>
    rw [symbolicT] at ht
    rw [tsize]
    exact ih a (by simp only [sizeT]; omega) ht
  | cmp k l r => simp [symbolicT] at ht

theorem evalAndL_le_one (ρ : List (String × Nat)) :
    ∀ args : List Term, (∀ a ∈ args, evalT ρ a ≤ 1) → evalAndL ρ 1 args ≤ 1 := by
  intro args
  induction args with
  | nil => intro _; exact Nat.le_refl 1
  | cons a r ih =>
    intro hb
    rw [evalAndL]
    exact land_le_one (hb a (List.mem_cons_self a r))
      (ih (fun x hx => hb x (List.mem_cons_of_mem _ hx)))

theorem evalAndL_ne_iff (ρ : List (String × Nat)) :
    ∀ args : List Term, (∀ a ∈ args, evalT ρ a ≤ 1) →
      (evalAndL ρ 1 args ≠ 0 ↔ ∀ a ∈ args, evalT ρ a ≠ 0) := by
  intro args
  induction args with
  | nil => intro _; simp [evalAndL]
  | cons a r ih =>
    intro hb
    rw [evalAndL,
      land_ne_zero_iff (hb a (List.mem_cons_self a r))
        (evalAndL_le_one ρ r (fun x hx => hb x (List.mem_cons_of_mem _ hx))),
      ih (fun x hx => hb x (List.mem_cons_of_mem _ hx))]
    simp [List.forall_mem_cons]

theorem evalOrL_le_one (ρ : List (String × Nat)) :
    ∀ args : List Term, (∀ a ∈ args, evalT ρ a ≤ 1) → evalOrL ρ args ≤ 1 := by
  intro args
  induction args with
  | nil => intro _; rw [evalOrL]; omega
  | cons a r ih =>
    intro hb
    rw [evalOrL]
    exact lor_le_one (hb a (List.mem_cons_self a r))
      (ih (fun x hx => hb x (List.mem_cons_of_mem _ hx)))

theorem evalOrL_ne_iff (ρ : List (String × Nat)) :
    ∀ args : List Term, (∀ a ∈ args, evalT ρ a ≤ 1) →
      (evalOrL ρ args ≠ 0 ↔ ∃ a ∈ args, evalT ρ a ≠ 0) := by
  intro args
  induction args with
  | nil => intro _; simp [evalOrL]
  | cons a r ih =>
    intro hb
    rw [evalOrL,
      lor_ne_zero_iff (hb a (List.mem_cons_self a r))
        (evalOrL_le_one ρ r (fun x hx => hb x (List.mem_cons_of_mem _ hx))),
      ih (fun x hx => hb x (List.mem_cons_of_mem _ hx))]
    simp

theorem evalT_le_one : ∀ t, symbolicT t = true → ∀ ρ, evalT ρ t ≤ 1 := by
  refine termRec (fun t => symbolicT t = true → ∀ ρ, evalT ρ t ≤ 1) ?_
  intro t ih ht ρ
  cases t with
  | var n s =>
    have hs : s = 1 := by simpa [symbolicT] using ht
    subst hs
    rw [evalT]
    have := Nat.mod_lt ((lookupS ρ n).getD 0) (show 0 < 2 ^ 1 by omega)
    omega
  | const v s =>
    have hs : s = 1 := by simpa [symbolicT] using ht
    subst hs
    rw [evalT, toUnsigned]
    have h1 : 0 ≤ v % ((2 : Int) ^ 1) := Int.emod_nonneg v (by norm_num)
    have h2 : v % ((2 : Int) ^ 1) < 2 ^ 1 := Int.emod_lt_of_pos v (by norm_num)
    omega
  | band args =>
    rw [evalT, tsize_of_symbolic _ ht]
    rw [symbolicT] at ht
    exact evalAndL_le_one ρ args fun a ha =>
      ih a (by have := sizeT_le_of_mem ha; simp only [sizeT]; omega)
        (symbolicTL_mem ht a ha) ρ
  | bor args =>
    rw [symbolicT] at ht
    rw [evalT]
    exact evalOrL_le_one ρ args fun a ha =>
      ih a (by have := sizeT_le_of_mem ha; simp only [sizeT]; omega)
        (symbolicTL_mem ht a ha) ρ
  | bnot a =>
    rw [symbolicT] at ht
    rw [evalT, tsize_of_symbolic a ht]
    exact xor_one_le_one (ih a (by simp only [sizeT]; omega) ht ρ)
  | cmp k l r => simp [symbolicT] at ht

theorem xor_one_eq_zero_iff {y : Nat} (hy : y ≤ 1) : Nat.xor 1 y = 0 ↔ y ≠ 0 := by
  interval_cases y <;> decide

theorem tsize_litT (l : Lit) : tsize (litT l) = 1 := by
  rcases l with ⟨n, _ | _⟩ <;> rfl

theorem symbolicT_litT (l : Lit) : symbolicT (litT l) = true := by
  rcases l with ⟨n, _ | _⟩ <;> rfl

theorem litT_eval (ρ : List (String × Nat)) (l : Lit) :
    evalT ρ (litT l) ≠ 0 ↔ litSatB ρ l = true := by
  rcases l with ⟨n, b⟩
  have hv := Nat.mod_two_eq_zero_or_one ((lookupS ρ n).getD 0)
  have hev : evalT ρ (.var n 1) = (lookupS ρ n).getD 0 % 2 := by
    rw [evalT, pow_one]
  cases b
  · show evalT ρ (.bnot (.var n 1)) ≠ 0 ↔ ((lookupS ρ n).getD 0 % 2 == 0) = true
    rw [evalT, hev, show (2 : Nat) ^ tsize (Term.var n 1) - 1 = 1 from rfl]
    rcases hv with h | h <;> rw [h] <;> decide
  · show evalT ρ (.var n 1) ≠ 0 ↔ ((lookupS ρ n).getD 0 % 2 != 0) = true
    rw [hev]
    rcases hv with h | h <;> rw [h] <;> decide

theorem cubeSatB_append (ρ : List (String × Nat)) (a b : List Lit) :
    cubeSatB ρ (a ++ b) = (cubeSatB ρ a && cubeSatB ρ b) := by
  simp [cubeSatB, List.all_append]

theorem cubesSatB_crossApp (ρ : List (String × Nat)) (A B : List (List Lit)) :
    cubesSatB ρ (crossApp A B) = true ↔
      (cubesSatB ρ A = true ∧ cubesSatB ρ B = true) := by
  simp only [cubesSatB, crossApp, List.any_eq_true]
  constructor
  · rintro ⟨c, hc, hsat⟩
    rw [List.mem_flatMap] at hc
    obtain ⟨a, ha, hc⟩ := hc
    rw [List.mem_map] at hc
    obtain ⟨b, hb, rfl⟩ := hc
    rw [cubeSatB_append, Bool.and_eq_true] at hsat
    exact ⟨⟨a, ha, hsat.1⟩, ⟨b, hb, hsat.2⟩⟩
  · rintro ⟨⟨a, ha, hA⟩, ⟨b, hb, hB⟩⟩
    refine ⟨a ++ b, ?_, ?_⟩
    · rw [List.mem_flatMap]
      exact ⟨a, ha, List.mem_map.mpr ⟨b, hb, rfl⟩⟩
    · rw [cubeSatB_append, hA, hB]
      rfl

theorem cubesSatB_distAll (ρ : List (String × Nat)) :
    ∀ Ls : List (List (List Lit)),
      (cubesSatB ρ (distAll Ls) = true ↔ ∀ L ∈ Ls, cubesSatB ρ L = true) := by
  intro Ls
  induction Ls with
  | nil => simp [distAll, cubesSatB, cubeSatB]
  | cons A r ih =>
    rw [distAll, cubesSatB_crossApp, ih]
    simp [List.forall_mem_cons]

theorem cubesSatB_concatAll (ρ : List (String × Nat)) :
    ∀ Ls : List (List (List Lit)),
      (cubesSatB ρ (concatAll Ls) = true ↔ ∃ L ∈ Ls, cubesSatB ρ L = true) := by
  intro Ls
  induction Ls with
  | nil => simp [concatAll, cubesSatB]
  | cons A r ih =>
    rw [concatAll]
    simp only [cubesSatB, List.any_append, Bool.or_eq_true]
    rw [show (A.any (cubeSatB ρ) = true) = (cubesSatB ρ A = true) from rfl]
    constructor
    · rintro (h | h)
      · exact ⟨A, List.mem_cons_self A r, h⟩
      · obtain ⟨L, hL, hs⟩ := ih.mp h
        exact ⟨L, List.mem_cons_of_mem _ hL, hs⟩
    · rintro ⟨L, hL, hs⟩
      rcases List.mem_cons.mp hL with h | h
      · subst h; exact Or.inl hs
      · exact Or.inr (ih.mpr ⟨L, h, hs⟩)

theorem dnfCuL_eq_map (neg : Bool) :
    ∀ args : List Term, dnfCuL neg args = args.map (dnfCu neg) := by
  intro args
  induction args with
  | nil => rfl
  | cons a r ih => rw [dnfCuL, ih]; rfl

theorem dnfCu_sat : ∀ t, symbolicT t = true → ∀ (neg : Bool) (ρ : List (String × Nat)),
    (cubesSatB ρ (dnfCu neg t) = true ↔
      (if neg then evalT ρ t = 0 else evalT ρ t ≠ 0)) := by
  refine termRec (fun t => symbolicT t = true → ∀ (neg : Bool) (ρ : List (String × Nat)),
    (cubesSatB ρ (dnfCu neg t) = true ↔
      (if neg then evalT ρ t = 0 else evalT ρ t ≠ 0))) ?_
  intro t ih ht neg ρ
  cases t with
  | var n s =>
    have hs : s = 1 := by simpa [symbolicT] using ht
    subst hs
    have hv := Nat.mod_two_eq_zero_or_one ((lookupS ρ n).getD 0)
    have hev : evalT ρ (.var n 1) = (lookupS ρ n).getD 0 % 2 := by
      rw [evalT, pow_one]
    cases neg
    · show cubesSatB ρ [[(n, true)]] = true ↔ evalT ρ (.var n 1) ≠ 0
      rw [hev]
      rcases hv with h | h <;> simp [cubesSatB, cubeSatB, litSatB, h]
    · show cubesSatB ρ [[(n, false)]] = true ↔ evalT ρ (.var n 1) = 0
      rw [hev]
      rcases hv with h | h <;> simp [cubesSatB, cubeSatB, litSatB, h]
  | const v s =>
    have hs : s = 1 := by simpa [symbolicT] using ht
    subst hs
    have hev : evalT ρ (.const v 1) = toUnsigned v 1 := by rw [evalT]
    have hv : toUnsigned v 1 = 0 ∨ toUnsigned v 1 = 1 := by
      rw [toUnsigned]
      have h1 : 0 ≤ v % ((2 : Int) ^ 1) := Int.emod_nonneg v (by norm_num)
      have h2 : v % ((2 : Int) ^ 1) < 2 ^ 1 := Int.emod_lt_of_pos v (by norm_num)
      omega
    rw [show dnfCu neg (.const v 1) =
      (if (toUnsigned v 1 != 0) != neg then [[]] else []) from rfl]
    rcases hv with h | h <;> cases neg <;> rw [hev, h] <;>
      simp [cubesSatB, cubeSatB]
  | band args =>
    have hsl : symbolicTL args = true := by rw [symbolicT] at ht; exact ht
    have hbound : ∀ a ∈ args, evalT ρ a ≤ 1 := fun a ha =>
      evalT_le_one a (symbolicTL_mem hsl a ha) ρ
    have hev : evalT ρ (.band args) = evalAndL ρ 1 args := by
      rw [evalT, tsize_of_symbolic _ ht]
      rfl
    have hiff : (∀ L ∈ args.map (dnfCu false), cubesSatB ρ L = true) ↔
        (∀ a ∈ args, evalT ρ a ≠ 0) := by
      constructor
      · intro h a ha
        have hm := h (dnfCu false a) (List.mem_map_of_mem _ ha)
        have := (ih a (by have := sizeT_le_of_mem ha; simp only [sizeT]; omega)
          (symbolicTL_mem hsl a ha) false ρ).mp hm
        simpa using this
      · intro h L hL
        obtain ⟨a, ha, rfl⟩ := List.mem_map.mp hL
        exact (ih a (by have := sizeT_le_of_mem ha; simp only [sizeT]; omega)
          (symbolicTL_mem hsl a ha) false ρ).mpr (by simpa using h a ha)
    have hiffn : (∃ L ∈ args.map (dnfCu true), cubesSatB ρ L = true) ↔
        (∃ a ∈ args, evalT ρ a = 0) := by
      constructor
      · rintro ⟨L, hL, hs⟩
        obtain ⟨a, ha, rfl⟩ := List.mem_map.mp hL
        have := (ih a (by have := sizeT_le_of_mem ha; simp only [sizeT]; omega)
          (symbolicTL_mem hsl a ha) true ρ).mp hs
        exact ⟨a, ha, by simpa using this⟩
      · rintro ⟨a, ha, hz⟩
        refine ⟨dnfCu true a, List.mem_map_of_mem _ ha, ?_⟩
        exact (ih a (by have := sizeT_le_of_mem ha; simp only [sizeT]; omega)
          (symbolicTL_mem hsl a ha) true ρ).mpr (by simpa using hz)
    cases neg
    · show cubesSatB ρ (distAll (dnfCuL false args)) = true ↔ evalT ρ (.band args) ≠ 0
      rw [dnfCuL_eq_map, cubesSatB_distAll, hiff, hev]
      exact (evalAndL_ne_iff ρ args hbound).symm
    · show cubesSatB ρ (concatAll (dnfCuL true args)) = true ↔ evalT ρ (.band args) = 0
      rw [dnfCuL_eq_map, cubesSatB_concatAll, hiffn, hev]
      constructor
      · rintro ⟨a, ha, hz⟩
        by_contra hcon
        exact absurd ((evalAndL_ne_iff ρ args hbound).mp hcon a ha) (by simp [hz])
      · intro hz
        by_contra hno
        push_neg at hno
        have hall : ∀ a ∈ args, evalT ρ a ≠ 0 := fun a ha => hno a ha
        exact (evalAndL_ne_iff ρ args hbound).mpr hall hz
  | bor args =>
    have hsl : symbolicTL args = true := by rw [symbolicT] at ht; exact ht
    have hbound : ∀ a ∈ args, evalT ρ a ≤ 1 := fun a ha =>
      evalT_le_one a (symbolicTL_mem hsl a ha) ρ
    have hev : evalT ρ (.bor args) = evalOrL ρ args := by rw [evalT]
    have hiff : (∃ L ∈ args.map (dnfCu false), cubesSatB ρ L = true) ↔
        (∃ a ∈ args, evalT ρ a ≠ 0) := by
      constructor
      · rintro ⟨L, hL, hs⟩
        obtain ⟨a, ha, rfl⟩ := List.mem_map.mp hL
        have := (ih a (by have := sizeT_le_of_mem ha; simp only [sizeT]; omega)
          (symbolicTL_mem hsl a ha) false ρ).mp hs
        exact ⟨a, ha, by simpa using this⟩
      · rintro ⟨a, ha, hz⟩
        refine ⟨dnfCu false a, List.mem_map_of_mem _ ha, ?_⟩
        exact (ih a (by have := sizeT_le_of_mem ha; simp only [sizeT]; omega)
          (symbolicTL_mem hsl a ha) false ρ).mpr (by simpa using hz)
    have hiffn : (∀ L ∈ args.map (dnfCu true), cubesSatB ρ L = true) ↔
        (∀ a ∈ args, evalT ρ a = 0) := by
      constructor
      · intro h a ha
        have hm := h (dnfCu true a) (List.mem_map_of_mem _ ha)
        have := (ih a (by have := sizeT_le_of_mem ha; simp only [sizeT]; omega)
          (symbolicTL_mem hsl a ha) true ρ).mp hm
        simpa using this
      · intro h L hL
        obtain ⟨a, ha, rfl⟩ := List.mem_map.mp hL
        exact (ih a (by have := sizeT_le_of_mem ha; simp only [sizeT]; omega)
          (symbolicTL_mem hsl a ha) true ρ).mpr (by simpa using h a ha)
    cases neg
    · show cubesSatB ρ (concatAll (dnfCuL false args)) = true ↔ evalT ρ (.bor args) ≠ 0
      rw [dnfCuL_eq_map, cubesSatB_concatAll, hiff, hev]
      exact (evalOrL_ne_iff ρ args hbound).symm
    · show cubesSatB ρ (distAll (dnfCuL true args)) = true ↔ evalT ρ (.bor args) = 0
      rw [dnfCuL_eq_map, cubesSatB_distAll, hiffn, hev]
      constructor
      · intro h
        by_contra hno
        obtain ⟨a, ha, hz⟩ := (evalOrL_ne_iff ρ args hbound).mp hno
        exact hz (h a ha)
      · intro hz a ha
        by_contra hne2
        exact (evalOrL_ne_iff ρ args hbound).mpr ⟨a, ha, hne2⟩ hz
  | bnot a =>
    have hsa : symbolicT a = true := by rw [symbolicT] at ht; exact ht
    have hba : evalT ρ a ≤ 1 := evalT_le_one a hsa ρ
    have hev : evalT ρ (.bnot a) = Nat.xor 1 (evalT ρ a) := by
      rw [evalT, tsize_of_symbolic a hsa]
      rfl
    have hih := ih a (by simp only [sizeT]; omega) hsa
    cases neg
    · show cubesSatB ρ (dnfCu true a) = true ↔ evalT ρ (.bnot a) ≠ 0
      rw [hev, xor_one_ne_zero_iff hba]
      simpa using hih true ρ
    · show cubesSatB ρ (dnfCu false a) = true ↔ evalT ρ (.bnot a) = 0
      rw [hev, xor_one_eq_zero_iff hba]
      simpa using hih false ρ
  | cmp k l r => simp [symbolicT] at ht

theorem symbolicTL_of_forall : ∀ {l : List Term},
    (∀ t ∈ l, symbolicT t = true) → symbolicTL l = true := by
  intro l h
  induction l with
  | nil => rfl
  | cons a r ih =>
    rw [symbolicTL, Bool.and_eq_true]
    exact ⟨h a (List.mem_cons_self a r), ih fun t ht => h t (List.mem_cons_of_mem _ ht)⟩

theorem symbolicTL_map_litT (ls : List Lit) : symbolicTL (ls.map litT) = true :=
  symbolicTL_of_forall fun t ht => by
    obtain ⟨l, _, rfl⟩ := List.mem_map.mp ht
    exact symbolicT_litT l

theorem symbolicT_cubeToTerm : ∀ c : List Lit, symbolicT (cubeToTerm c) = true := by
  intro c
  rcases c with _ | ⟨l1, ls⟩
  · rfl
  · rcases ls with _ | ⟨l2, ls2⟩
    · exact symbolicT_litT l1
    · show symbolicT (.band ((l1 :: l2 :: ls2).map litT)) = true
      rw [symbolicT]
      exact symbolicTL_map_litT _

theorem symbolicT_cubesToTerm (cs : List (List Lit)) :
    symbolicT (cubesToTerm cs) = true := by
  rcases cs with _ | ⟨c1, cs2⟩
  · rfl
  · rcases ha : (c1 :: cs2).any List.isEmpty with _ | _
    · rcases cs2 with _ | ⟨c2, rest⟩
      · have hred : cubesToTerm [c1] = cubeToTerm c1 := by
          unfold cubesToTerm
          simp only [ha, Bool.false_eq_true, if_false]
          rfl
        rw [hred]
        exact symbolicT_cubeToTerm c1
      · have hred : cubesToTerm (c1 :: c2 :: rest) =
            .bor ((c1 :: c2 :: rest).map cubeToTerm) := by
          unfold cubesToTerm
          simp only [ha, Bool.false_eq_true, if_false]
          rfl
        rw [hred, symbolicT]
        exact symbolicTL_of_forall fun t ht => by
          obtain ⟨c, _, rfl⟩ := List.mem_map.mp ht
          exact symbolicT_cubeToTerm c
    · have hred : cubesToTerm (c1 :: cs2) = .const 1 1 := by
        unfold cubesToTerm
        simp only [ha, if_true]
        rfl
      rw [hred]
      rfl

theorem cubeToTerm_eval (ρ : List (String × Nat)) :
    ∀ c : List Lit, (evalT ρ (cubeToTerm c) ≠ 0 ↔ cubeSatB ρ c = true) := by
  intro c
  rcases c with _ | ⟨l1, ls⟩
  · have h1 : evalT ρ (Term.const 1 1) = 1 := rfl
    show evalT ρ (.const 1 1) ≠ 0 ↔ cubeSatB ρ [] = true
    simp [h1, cubeSatB]
  · rcases ls with _ | ⟨l2, ls2⟩
    · show evalT ρ (litT l1) ≠ 0 ↔ cubeSatB ρ [l1] = true
      rw [litT_eval]
      simp [cubeSatB]
    · show evalT ρ (.band ((l1 :: l2 :: ls2).map litT)) ≠ 0 ↔
        cubeSatB ρ (l1 :: l2 :: ls2) = true
      have hb : ∀ t ∈ (l1 :: l2 :: ls2).map litT, evalT ρ t ≤ 1 := by
        intro t ht
        obtain ⟨l, _, rfl⟩ := List.mem_map.mp ht
        exact evalT_le_one _ (symbolicT_litT l) ρ
      have hev : evalT ρ (.band ((l1 :: l2 :: ls2).map litT)) =
          evalAndL ρ 1 ((l1 :: l2 :: ls2).map litT) := by
        rw [evalT, tsize_of_symbolic _ (by rw [symbolicT]; exact symbolicTL_map_litT _)]
        rfl
      rw [hev, evalAndL_ne_iff ρ _ hb, cubeSatB, List.all_eq_true]
      constructor
      · intro h l hl
        exact (litT_eval ρ l).mp (h (litT l) (List.mem_map_of_mem _ hl))
      · intro h t ht
        obtain ⟨l, hl, rfl⟩ := List.mem_map.mp ht
        exact (litT_eval ρ l).mpr (h l hl)

theorem cubesToTerm_eval (ρ : List (String × Nat)) (cs : List (List Lit)) :
    evalT ρ (cubesToTerm cs) ≠ 0 ↔ cubesSatB ρ cs = true := by
  rcases cs with _ | ⟨c1, cs2⟩
  · have h0 : evalT ρ (Term.const 0 1) = 0 := rfl
    show evalT ρ (.const 0 1) ≠ 0 ↔ cubesSatB ρ [] = true
    simp [h0, cubesSatB]
  · rcases ha : (c1 :: cs2).any List.isEmpty with _ | _
    · rcases cs2 with _ | ⟨c2, rest⟩
      · have hred : cubesToTerm [c1] = cubeToTerm c1 := by
          unfold cubesToTerm
          simp only [ha, Bool.false_eq_true, if_false]
          rfl
        rw [hred, cubeToTerm_eval]
        simp [cubesSatB]
      · have hred : cubesToTerm (c1 :: c2 :: rest) =
            .bor ((c1 :: c2 :: rest).map cubeToTerm) := by
          unfold cubesToTerm
          simp only [ha, Bool.false_eq_true, if_false]
          rfl
        have hb : ∀ t ∈ (c1 :: c2 :: rest).map cubeToTerm, evalT ρ t ≤ 1 := by
          intro t ht
          obtain ⟨c, _, rfl⟩ := List.mem_map.mp ht
          exact evalT_le_one _ (symbolicT_cubeToTerm c) ρ
        rw [hred, show evalT ρ (.bor ((c1 :: c2 :: rest).map cubeToTerm)) =
            evalOrL ρ ((c1 :: c2 :: rest).map cubeToTerm) from by rw [evalT],
          evalOrL_ne_iff ρ _ hb, cubesSatB, List.any_eq_true]
        constructor
        · rintro ⟨t, ht, hne⟩
          obtain ⟨c, hc, rfl⟩ := List.mem_map.mp ht
          exact ⟨c, hc, (cubeToTerm_eval ρ c).mp hne⟩
        · rintro ⟨c, hc, hs⟩
          exact ⟨cubeToTerm c, List.mem_map_of_mem _ hc, (cubeToTerm_eval ρ c).mpr hs⟩
    · have hred : cubesToTerm (c1 :: cs2) = .const 1 1 := by
        unfold cubesToTerm
        simp only [ha, if_true]
        rfl
      rw [hred]
      have h1 : evalT ρ (Term.const 1 1) = 1 := rfl
      obtain ⟨c, hc, hce⟩ := List.any_eq_true.mp ha
      have hsat : cubesSatB ρ (c1 :: cs2) = true := by
        rw [cubesSatB, List.any_eq_true]
        refine ⟨c, hc, ?_⟩
        have hcc : c = [] := by
          cases c with
          | nil => rfl
          | cons a r => simp [List.isEmpty] at hce
        subst hcc
        rfl
      simp [h1, hsat]

theorem dnfTermOf_eval {t : Term} (h : symbolicT t = true) (ρ : List (String × Nat)) :
    evalT ρ (dnfTermOf t) ≠ 0 ↔ evalT ρ t ≠ 0 := by
  rw [dnfTermOf, cubesToTerm_eval]
  simpa using dnfCu_sat t h false ρ

theorem dnfTermOf_symbolic (t : Term) : symbolicT (dnfTermOf t) = true :=
  symbolicT_cubesToTerm _

theorem bnot_eval_ne_iff {X : Term} (h : symbolicT X = true) (ρ : List (String × Nat)) :
    evalT ρ (.bnot X) ≠ 0 ↔ evalT ρ X = 0 := by
  have hev : evalT ρ (.bnot X) = Nat.xor 1 (evalT ρ X) := by
    rw [evalT, tsize_of_symbolic X h]
    rfl
  rw [hev, xor_one_ne_zero_iff (evalT_le_one X h ρ)]

theorem bnot_eval_zero_iff {X : Term} (h : symbolicT X = true) (ρ : List (String × Nat)) :
    evalT ρ (.bnot X) = 0 ↔ evalT ρ X ≠ 0 := by
  have hev : evalT ρ (.bnot X) = Nat.xor 1 (evalT ρ X) := by
    rw [evalT, tsize_of_symbolic X h]
    rfl
  rw [hev, xor_one_eq_zero_iff (evalT_le_one X h ρ)]

theorem symbolicT_customNegate {A : Term} (h : symbolicT A = true) :
    symbolicT (customNegate A) = true := by
  cases A with
  | bnot a =>
    show symbolicT a = true
    rw [symbolicT] at h
    exact h
  | var n s => exact h
  | const v s => exact h
  | band args => exact h
  | bor args => exact h
  | cmp k l r => exact h

theorem customNegate_eval {A : Term} (h : symbolicT A = true) (ρ : List (String × Nat)) :
    evalT ρ (customNegate A) ≠ 0 ↔ evalT ρ A = 0 := by
  cases A with
  | bnot a =>
    have hsa : symbolicT a = true := by rw [symbolicT] at h; exact h
    show evalT ρ a ≠ 0 ↔ evalT ρ (.bnot a) = 0
    rw [bnot_eval_zero_iff hsa]
  | var n s => exact bnot_eval_ne_iff h ρ
  | const v s => exact bnot_eval_ne_iff h ρ
  | band args => exact bnot_eval_ne_iff h ρ
  | bor args => exact bnot_eval_ne_iff h ρ
  | cmp k l r => exact bnot_eval_ne_iff h ρ

theorem simplifyTerm_of_taut {t : Term} (h : tautB t = true) :
    simplifyTerm t = .const 1 1 := by
  rw [simplifyTerm, if_pos h]

theorem impliesTermB_of_pointwise {A B : Term} (hA : symbolicT A = true)
    (hB : symbolicT B = true) (h : ∀ ρ, evalT ρ A ≠ 0 → evalT ρ B ≠ 0) :
    impliesTermB A B = true := by
  have htaut : tautB (.bor [customNegate A, B]) = true := by
    rw [tautB, List.all_eq_true]
    intro ρ _
    rw [bne_iff_ne]
    have hbound : ∀ a ∈ [customNegate A, B], evalT ρ a ≤ 1 := by
      intro a ha
      rcases List.mem_cons.mp ha with h1 | h1
      · subst h1
        exact evalT_le_one _ (symbolicT_customNegate hA) ρ
      · rw [List.mem_singleton.mp h1]
        exact evalT_le_one _ hB ρ
    rw [show evalT ρ (.bor [customNegate A, B]) = evalOrL ρ [customNegate A, B] from
      by rw [evalT]]
    rw [evalOrL_ne_iff ρ _ hbound]
    by_cases hz : evalT ρ A = 0
    · exact ⟨customNegate A, by simp, (customNegate_eval hA ρ).mpr hz⟩
    · exact ⟨B, by simp, h ρ hz⟩
  rw [impliesTermB, simplifyTerm_of_taut htaut]
  rfl

theorem equivTermB_of_pointwise {A B : Term} (hA : symbolicT A = true)
    (hB : symbolicT B = true) (h : ∀ ρ, (evalT ρ A ≠ 0 ↔ evalT ρ B ≠ 0)) :
    equivTermB A B = true := by
  rw [equivTermB, impliesTermB_of_pointwise hA hB fun ρ => (h ρ).mp,
    impliesTermB_of_pointwise hB hA fun ρ => (h ρ).mpr]
  rfl

theorem isVarT_false_clcInit {w : World} {c : Term} (h : ∀ n s, c ≠ Term.var n s) :
    clcInit w c =
      (⟨.id w.counter, w.wid⟩, ⟨w.wid, (w.counter, c) :: w.defs, w.counter + 1⟩) := by
  cases c with
  | var n s => exact absurd rfl (h n s)
  | const v s => rfl
  | band args => rfl
  | bor args => rfl
  | bnot a => rfl
  | cmp k l r => rfl

/-- Counterexample for C4: for `x` bound to `AND(OR(a, b), c)`, after
`y = to_dnf(x)` the structural comparison `is_equal_to(x, y)` is false (the
DNF form is a different formula shape), refuting the claim as stated. -/
theorem C4_counterexample :
    is_equal_to
      (to_dnf ⟨VarRef.id 0, 0⟩
        ⟨0, [(0, Term.band [Term.bor [Term.var "a" 1, Term.var "b" 1], Term.var "c" 1])],
          1⟩).2
      ⟨VarRef.id 0, 0⟩
      (to_dnf ⟨VarRef.id 0, 0⟩
        ⟨0, [(0, Term.band [Term.bor [Term.var "a" 1, Term.var "b" 1], Term.var "c" 1])],
          1⟩).1 = false := by
  rfl

/-- C4 amended: `to_dnf` operates on a copy and never mutates its input:
after `y = to_dnf(x)` the original `x` dereferences to exactly the node it had
before, and `y` is semantically equivalent to `x` (`is_equivalent_to` holds;
the structural `is_equal_to` of the original claim fails in general, see the
counterexample). -/
theorem C4_to_dnf_no_mutation (w : World) (x : CLC)
    (hwf : WFdefs w) (hlive : liveHandle w x)
    (hsym : symbolicT (w.condOf x) = true) :
    (to_dnf x w).2.condOf x = w.condOf x ∧
    (is_equivalent_to (to_dnf x w).1 x (to_dnf x w).2).1 = true := by
  by_cases hv : ∃ n s, w.condOf x = Term.var n s
  · obtain ⟨n, s, hc⟩ := hv
    have hres : to_dnf x w = (⟨VarRef.named n s, w.wid⟩, w) := by
      unfold to_dnf copyH dnfVisit World.freeWorldCondition
      rw [hc]
      rfl
    rw [hres]
    refine ⟨rfl, ?_⟩
    rw [is_equivalent_to_eq]
    show equivTermB (w.condOf ⟨VarRef.named n s, w.wid⟩) (w.condOf x) = true
    rw [show w.condOf ⟨VarRef.named n s, w.wid⟩ = Term.var n s from rfl, hc]
    exact equivTermB_of_pointwise (hc ▸ hsym) (hc ▸ hsym) fun ρ => Iff.rfl
  · have hnv : ∀ n s, w.condOf x ≠ Term.var n s := by push_neg at hv; exact hv
    have hres : to_dnf x w =
        (⟨VarRef.id w.counter, w.wid⟩,
          ⟨w.wid, (w.counter, dnfTermOf (w.condOf x)) :: w.defs, w.counter + 1⟩) := by
      unfold to_dnf copyH dnfVisit World.freeWorldCondition
      rw [isVarT_false_clcInit hnv]
      simp [World.update, updateFirstDef]
    rw [hres]
    constructor
    · exact condOf_cons_fresh _ (live_ref_lt hwf hlive)
    · rw [is_equivalent_to_eq]
      show equivTermB
        (World.condOf ⟨w.wid, (w.counter, dnfTermOf (w.condOf x)) :: w.defs, w.counter + 1⟩
          ⟨VarRef.id w.counter, w.wid⟩)
        (World.condOf ⟨w.wid, (w.counter, dnfTermOf (w.condOf x)) :: w.defs, w.counter + 1⟩
          x) = true
      rw [show World.condOf
          ⟨w.wid, (w.counter, dnfTermOf (w.condOf x)) :: w.defs, w.counter + 1⟩
          ⟨VarRef.id w.counter, w.wid⟩ = dnfTermOf (w.condOf x) from
          by simp [World.condOf, lookupN_cons_self],
        condOf_cons_fresh _ (live_ref_lt hwf hlive)]
      exact equivTermB_of_pointwise (dnfTermOf_symbolic _) hsym fun ρ => dnfTermOf_eval hsym ρ

/-- Witness for the amended C4 at the counterexample input: the original is
untouched and the DNF copy is semantically equivalent. -/
theorem C4_witness :
    WFdefs ⟨0, [(0, Term.band [Term.bor [Term.var "a" 1, Term.var "b" 1], Term.var "c" 1])],
      1⟩ ∧
    symbolicT (World.condOf
      ⟨0, [(0, Term.band [Term.bor [Term.var "a" 1, Term.var "b" 1], Term.var "c" 1])], 1⟩
      ⟨VarRef.id 0, 0⟩) = true ∧
    (to_dnf ⟨VarRef.id 0, 0⟩
      ⟨0, [(0, Term.band [Term.bor [Term.var "a" 1, Term.var "b" 1], Term.var "c" 1])],
        1⟩).2.condOf ⟨VarRef.id 0, 0⟩ =
      World.condOf
        ⟨0, [(0, Term.band [Term.bor [Term.var "a" 1, Term.var "b" 1], Term.var "c" 1])], 1⟩
        ⟨VarRef.id 0, 0⟩ :=
  ⟨fun p hp => by
      have hh := List.mem_singleton.mp hp
      subst hh
      decide,
    rfl,
    (C4_to_dnf_no_mutation
      ⟨0, [(0, Term.band [Term.bor [Term.var "a" 1, Term.var "b" 1], Term.var "c" 1])], 1⟩
      ⟨VarRef.id 0, 0⟩
      (fun p hp => by
        have hh := List.mem_singleton.mp hp
        subst hh
        decide)
      (Or.inr rfl) rfl).1⟩

/-! ## Infrastructure for the clause-removal path of substitute_by_true -/

theorem condOf_defs_eq {w2 w : World} (h : w2.defs = w.defs) (x : CLC) :
    w2.condOf x = w.condOf x := by
  cases href : x.ref with
  | named n s => simp [World.condOf, href]
  | id k => simp [World.condOf, href, h]

theorem readsStable_condOf {w : World} {x : CLC} {t : Term} (hr : readsStable w x t) :
    w.condOf x = t := by
  rcases hr with ⟨n, s, href, rfl⟩ | ⟨k, href, _, hl⟩
  · simp [World.condOf, href]
  · simp [World.condOf, href, hl]

theorem readsStable_same_defs {w w2 : World} {x : CLC} {t : Term}
    (hd : w2.defs = w.defs) (hc : w.counter ≤ w2.counter)
    (hr : readsStable w x t) : readsStable w2 x t := by
  rcases hr with hn | ⟨k, href, hk, hl⟩
  · exact Or.inl hn
  · exact Or.inr ⟨k, href, by omega, by rw [hd]; exact hl⟩

theorem readsStable_cons_fresh {w : World} {x : CLC} {t u : Term}
    (hr : readsStable w x t) :
    readsStable ⟨w.wid, (w.counter, u) :: w.defs, w.counter + 1⟩ x t := by
  rcases hr with hn | ⟨k, href, hk, hl⟩
  · exact Or.inl hn
  · refine Or.inr ⟨k, href, ?_, ?_⟩
    · show k < w.counter + 1
      omega
    · show lookupN ((w.counter, u) :: w.defs) k = some t
      rw [lookupN_cons_ne _ _ (by omega : w.counter ≠ k)]
      exact hl

theorem readsStable_replaceBand {w : World} {x : CLC} {t u : Term} {xs : List Term}
    (hna : noAndT t = true) (hr : readsStable w x t) :
    readsStable (w.replaceEverywhere (.band xs) u) x t := by
  rcases hr with hn | ⟨k, href, hk, hl⟩
  · exact Or.inl hn
  · refine Or.inr ⟨k, href, hk, ?_⟩
    show lookupN (w.defs.map fun p => (p.1, substT (.band xs) u p.2)) k = some t
    rw [lookupN_map, hl]
    simp only [Option.map_some']
    rw [substT_noAnd t hna xs u]

theorem consWorld_spec (w : World) (t : Term) :
    (⟨w.wid, (w.counter, t) :: w.defs, w.counter + 1⟩ : World).wid = w.wid ∧
    w.counter ≤ w.counter + 1 ∧
    (∃ pre, ((w.counter, t) :: w.defs) = pre ++ w.defs ∧ ∀ p ∈ pre, w.counter ≤ p.1) ∧
    (WFdefs w → WFdefs ⟨w.wid, (w.counter, t) :: w.defs, w.counter + 1⟩) ∧
    readsStable ⟨w.wid, (w.counter, t) :: w.defs, w.counter + 1⟩ ⟨.id w.counter, w.wid⟩ t ∧
    (∀ (x : CLC) (u : Term), readsStable w x u →
      readsStable ⟨w.wid, (w.counter, t) :: w.defs, w.counter + 1⟩ x u) ∧
    (∀ k, (⟨.id w.counter, w.wid⟩ : CLC).ref = VarRef.id k → w.counter ≤ k) := by
  refine ⟨rfl, Nat.le_succ _, ⟨[(w.counter, t)], rfl, by simp⟩, ?_, ?_, ?_, ?_⟩
  · intro hwf p hp
    rcases List.mem_cons.mp hp with h1 | h2
    · rw [h1]
      exact Nat.lt_succ_self _
    · exact Nat.lt_succ_of_lt (hwf p h2)
  · exact Or.inr ⟨w.counter, rfl, Nat.lt_succ_self _, lookupN_cons_self _ _ _⟩
  · exact fun x u hr => readsStable_cons_fresh hr
  · intro k hk
    injection hk with h2
    exact h2.le

theorem clcInit_facts (w : World) (t : Term) :
    (clcInit w t).2.wid = w.wid ∧
    w.counter ≤ (clcInit w t).2.counter ∧
    (∃ pre, (clcInit w t).2.defs = pre ++ w.defs ∧ ∀ p ∈ pre, w.counter ≤ p.1) ∧
    (WFdefs w → WFdefs (clcInit w t).2) ∧
    readsStable (clcInit w t).2 (clcInit w t).1 t ∧
    (∀ (x : CLC) (u : Term), readsStable w x u → readsStable (clcInit w t).2 x u) ∧
    (∀ k, (clcInit w t).1.ref = VarRef.id k → w.counter ≤ k) := by
  cases t
  case var n s =>
    exact ⟨rfl, Nat.le_refl _, ⟨[], rfl, by simp⟩, fun h => h,
      Or.inl ⟨n, s, rfl, rfl⟩, fun x u hr => hr, fun k hk => VarRef.noConfusion hk⟩
  case const v s => exact consWorld_spec w (.const v s)
  case band args => exact consWorld_spec w (.band args)
  case bor args => exact consWorld_spec w (.bor args)
  case bnot a => exact consWorld_spec w (.bnot a)
  case cmp k l r => exact consWorld_spec w (.cmp k l r)

theorem wrapAll_facts : ∀ (ts : List Term) (w : World),
    (wrapAll w ts).2.wid = w.wid ∧
    w.counter ≤ (wrapAll w ts).2.counter ∧
    (∃ pre, (wrapAll w ts).2.defs = pre ++ w.defs ∧ ∀ p ∈ pre, w.counter ≤ p.1) ∧
    (WFdefs w → WFdefs (wrapAll w ts).2) ∧
    (wrapAll w ts).1.length = ts.length ∧
    List.Forall₂ (readsStable (wrapAll w ts).2) (wrapAll w ts).1 ts ∧
    (∀ (x : CLC) (u : Term), readsStable w x u → readsStable (wrapAll w ts).2 x u) ∧
    (∀ c ∈ (wrapAll w ts).1, ∀ k, c.ref = VarRef.id k → w.counter ≤ k) := by
  intro ts
  induction ts with
  | nil =>
    intro w
    exact ⟨rfl, Nat.le_refl _, ⟨[], rfl, by simp⟩, fun h => h, rfl, List.Forall₂.nil,
      fun x u hr => hr, fun c hc => absurd hc (List.not_mem_nil c)⟩
  | cons t rest ih =>
    intro w
    obtain ⟨hw1, hc1, ⟨pre1, hd1, hp1⟩, hwf1, hrd1, htr1, hid1⟩ := clcInit_facts w t
    obtain ⟨hw2, hc2, ⟨pre2, hd2, hp2⟩, hwf2, hlen2, hfa2, htr2, hid2⟩ :=
      ih (clcInit w t).2
    refine ⟨?_, ?_, ?_, ?_, ?_, ?_, ?_, ?_⟩
    · show (wrapAll (clcInit w t).2 rest).2.wid = w.wid
      rw [hw2, hw1]
    · show w.counter ≤ (wrapAll (clcInit w t).2 rest).2.counter
      exact le_trans hc1 hc2
    · refine ⟨pre2 ++ pre1, ?_, ?_⟩
      · show (wrapAll (clcInit w t).2 rest).2.defs = (pre2 ++ pre1) ++ w.defs
        rw [hd2, hd1, List.append_assoc]
      · intro p hp
        rcases List.mem_append.mp hp with h1 | h2
        · exact le_trans hc1 (hp2 p h1)
        · exact hp1 p h2
    · exact fun h => hwf2 (hwf1 h)
    · show ((clcInit w t).1 :: (wrapAll (clcInit w t).2 rest).1).length = (t :: rest).length
      simp only [List.length_cons, hlen2]
    · show List.Forall₂ (readsStable (wrapAll (clcInit w t).2 rest).2)
        ((clcInit w t).1 :: (wrapAll (clcInit w t).2 rest).1) (t :: rest)
      exact List.Forall₂.cons (htr2 _ _ hrd1) hfa2
    · exact fun x u hr => htr2 x u (htr1 x u hr)
    · intro c hc k hk
      rcases List.mem_cons.mp hc with h1 | h2
      · exact hid1 k (h1 ▸ hk)
      · exact le_trans hc1 (hid2 c h2 k hk)

theorem lookupN_append_fresh {c : Nat} :
    ∀ (pre defs : List (Nat × Term)) (k : Nat), (∀ p ∈ pre, c ≤ p.1) → k < c →
      lookupN (pre ++ defs) k = lookupN defs k := by
  intro pre
  induction pre with
  | nil => intro defs k _ _; rfl
  | cons p r ih =>
    intro defs k hp hk
    have hne : ¬(p.1 = k) := by
      intro h
      have := hp p (List.mem_cons_self p r)
      omega
    show lookupN (p :: (r ++ defs)) k = lookupN defs k
    rw [lookupN, if_neg hne]
    exact ih defs k (fun q hq => hp q (List.mem_cons_of_mem p hq)) hk

theorem lookupN_foldErase_ne : ∀ (roots : List Nat) (defs : List (Nat × Term)) (j : Nat),
    (∀ r ∈ roots, r ≠ j) → lookupN (roots.foldl eraseFirstDef defs) j = lookupN defs j := by
  intro roots
  induction roots with
  | nil => intro defs j _; rfl
  | cons r rs ih =>
    intro defs j hr
    show lookupN (rs.foldl eraseFirstDef (eraseFirstDef defs r)) j = lookupN defs j
    rw [ih _ _ (fun x hx => hr x (List.mem_cons_of_mem _ hx))]
    exact lookupN_eraseFirst_ne _ (Ne.symm (hr r (List.mem_cons_self _ _)))

theorem any_congr_mem {α : Type} {l : List α} {p q : α → Bool}
    (h : ∀ a ∈ l, p a = q a) : l.any p = l.any q := by
  induction l with
  | nil => rfl
  | cons a r ih =>
    simp only [List.any_cons, h a (List.mem_cons_self a r),
      ih fun x hx => h x (List.mem_cons_of_mem a hx)]

theorem filter_twice {α : Type} (P Q : α → Bool) :
    ∀ l : List α, (l.filter Q).filter P = l.filter fun a => Q a && P a := by
  intro l
  induction l with
  | nil => rfl
  | cons a r ih =>
    rcases hq : Q a with _ | _
    · simp [List.filter_cons, hq, ih]
    · rcases hp : P a with _ | _
      · simp [List.filter_cons, hq, hp, ih]
      · simp [List.filter_cons, hq, hp, ih]

theorem forall2_append {α β : Type} {R : α → β → Prop} :
    ∀ {A A2 : List α} {B B2 : List β}, List.Forall₂ R A B →
      List.Forall₂ R A2 B2 → List.Forall₂ R (A ++ A2) (B ++ B2) := by
  intro A A2 B B2 h1 h2
  induction h1 with
  | nil => exact h2
  | cons h _ ih => exact List.Forall₂.cons h ih

theorem forall2_map {α β γ δ : Type} {R : γ → δ → Prop} (f : α → γ) (g : β → δ) :
    ∀ {B : List α} {B2 : List β}, List.Forall₂ (fun b b2 => R (f b) (g b2)) B B2 →
      List.Forall₂ R (B.map f) (B2.map g) := by
  intro B B2 h
  induction h with
  | nil => exact List.Forall₂.nil
  | cons h1 _ ih => exact List.Forall₂.cons h1 ih

theorem forall2_mem_left {α β : Type} {R : α → β → Prop} :
    ∀ {A : List α} {B : List β}, List.Forall₂ R A B → ∀ a ∈ A, ∃ b ∈ B, R a b := by
  intro A B h
  induction h with
  | nil => intro a ha; exact absurd ha (List.not_mem_nil a)
  | cons hR _ ih =>
    intro a ha
    rcases List.mem_cons.mp ha with h1 | h2
    · exact ⟨_, List.mem_cons_self _ _, h1 ▸ hR⟩
    · rcases ih a h2 with ⟨b, hb, hR2⟩
      exact ⟨b, List.mem_cons_of_mem _ hb, hR2⟩

theorem any_eq_of_forall2 {α β : Type} {l : List α} {l2 : List β} {f : α → Bool}
    {g : β → Bool} (h : List.Forall₂ (fun a b => f a = g b) l l2) :
    l.any f = l2.any g := by
  induction h with
  | nil => rfl
  | cons hab _ ih => simp only [List.any_cons, hab, ih]

theorem pairsOf_forall2 {α β γ δ : Type} {R : α → γ → Prop} {S : β → δ → Prop}
    {B : List β} {B2 : List δ} (hB : List.Forall₂ S B B2) :
    ∀ {A : List α} {A2 : List γ}, List.Forall₂ R A A2 →
      List.Forall₂ (fun pr tt => R pr.1 tt.1 ∧ S pr.2 tt.2) (pairsOf A B) (pairsOf A2 B2) := by
  intro A A2 hA
  induction hA with
  | nil => exact List.Forall₂.nil
  | cons hR hrest ih =>
    simp only [pairsOf, List.flatMap_cons]
    exact forall2_append (forall2_map _ _ (hB.imp fun _ _ hS => And.intro hR hS)) ih

theorem mem_pairsOf {α β : Type} {A : List α} {B : List β} {pr : α × β}
    (h : pr ∈ pairsOf A B) : pr.1 ∈ A ∧ pr.2 ∈ B := by
  rcases List.mem_flatMap.mp h with ⟨a, ha, hm⟩
  rcases List.mem_map.mp hm with ⟨b, hbm, hpr⟩
  rw [← hpr]
  exact ⟨ha, hbm⟩

theorem pairsOf_mem {α β : Type} {A : List α} {B : List β} {a : α} {b : β}
    (h1 : a ∈ A) (h2 : b ∈ B) : (a, b) ∈ pairsOf A B :=
  List.mem_flatMap.mpr ⟨a, h1, List.mem_map.mpr ⟨b, h2, rfl⟩⟩

theorem pairsOf_any_right {e : Term → Term → Bool} {subTs args : List Term} {t : Term}
    (hmem : t ∈ args) :
    ((pairsOf subTs args).any fun tt => e tt.1 tt.2 && beqT t tt.2) =
      subTs.any fun s2 => e s2 t := by
  rcases hb : subTs.any (fun s2 => e s2 t) with _ | _
  · rw [List.any_eq_false] at hb
    rw [List.any_eq_false]
    intro pr hpr hcon
    rcases mem_pairsOf hpr with ⟨h1, _⟩
    rw [Bool.and_eq_true] at hcon
    have ht2 : t = pr.2 := (beqT_sound t pr.2).mp hcon.2
    exact hb pr.1 h1 (by rw [ht2]; exact hcon.1)
  · rw [List.any_eq_true] at hb
    rcases hb with ⟨s2, hs, hst⟩
    rw [List.any_eq_true]
    exact ⟨(s2, t), pairsOf_mem hs hmem, by simp [hst, beqT_refl]⟩

theorem isCnfFormT_band_eq (args : List Term) :
    isCnfFormT (Term.band args) = args.all isDisjLitsT := rfl

theorem noAndT_of_lit : ∀ {t : Term}, isLiteralT t = true → noAndT t = true := by
  intro t h
  cases t with
  | var n s => rfl
  | const v s => exact Bool.noConfusion h
  | band args => exact Bool.noConfusion h
  | bor args => exact Bool.noConfusion h
  | bnot a =>
    cases a with
    | var n s => rfl
    | const v s => exact Bool.noConfusion h
    | band args => exact Bool.noConfusion h
    | bor args => exact Bool.noConfusion h
    | bnot b => exact Bool.noConfusion h
    | cmp k l r => exact Bool.noConfusion h
  | cmp k l r => exact Bool.noConfusion h

theorem noAndTL_of_all_lits : ∀ {args : List Term}, args.all isLiteralT = true →
    noAndTL args = true := by
  intro args h
  induction args with
  | nil => rfl
  | cons a r ih =>
    rw [List.all_cons, Bool.and_eq_true] at h
    rw [noAndTL, Bool.and_eq_true]
    exact ⟨noAndT_of_lit h.1, ih h.2⟩

theorem noAndT_of_disjLits : ∀ {t : Term}, isDisjLitsT t = true → noAndT t = true := by
  intro t h
  cases t with
  | var n s => rfl
  | const v s => rfl
  | band args => exact Bool.noConfusion h
  | bor args =>
    have h2 : args.all isLiteralT = true := h
    show noAndTL args = true
    exact noAndTL_of_all_lits h2
  | bnot a =>
    cases a with
    | var n s => rfl
    | const v s => exact Bool.noConfusion h
    | band args => exact Bool.noConfusion h
    | bor args => exact Bool.noConfusion h
    | bnot b => exact Bool.noConfusion h
    | cmp k l r => exact Bool.noConfusion h
  | cmp k l r => exact Bool.noConfusion h

theorem noAnd_operands_of_cnf {args : List Term}
    (h : isCnfFormT (Term.band args) = true) : ∀ a ∈ args, noAndT a = true := by
  intro a ha
  have h2 : args.all isDisjLitsT = true := by
    rw [← isCnfFormT_band_eq]
    exact h
  rw [List.all_eq_true] at h2
  exact noAndT_of_disjLits (h2 a ha)

theorem replaceBand_facts (w : World) (cur cur2 : List Term) (s0 : Nat)
    (hl : lookupN w.defs s0 = some (Term.band cur)) :
    lookupN (w.replaceEverywhere (Term.band cur) (Term.band cur2)).defs s0 =
      some (Term.band cur2) := by
  show lookupN (w.defs.map fun p => (p.1, substT (Term.band cur) (Term.band cur2) p.2)) s0 = _
  rw [lookupN_map, hl]
  simp only [Option.map_some']
  rw [substT_root _ (beqT_refl _)]

/-- Transport of a stable read across one equivalence test (counter + 2). -/
theorem readsStable_bump2 {w : World} {x : CLC} {t : Term} (hr : readsStable w x t) :
    readsStable ⟨w.wid, w.defs, w.counter + 2⟩ x t :=
  @readsStable_same_defs w ⟨w.wid, w.defs, w.counter + 2⟩ x t rfl
    (Nat.le_add_right _ 2) hr

/-- Transport of a stable read across one equivalence test (counter + 2)
followed by the structural removal of operand edges. -/
theorem readsStable_stepTrue {w : World} {x : CLC} {t u : Term} {xs : List Term}
    (hna : noAndT t = true) (hr : readsStable w x t) :
    readsStable (World.replaceEverywhere ⟨w.wid, w.defs, w.counter + 2⟩
      (Term.band xs) u) x t := by
  exact readsStable_replaceBand hna (readsStable_bump2 hr)

theorem replacePairs_step_false {self s1 s2 : CLC} {rest : List (CLC × CLC)} {w : World}
    (hE : equivTermB (w.condOf s1) (w.condOf s2) = false) :
    replacePairs self ((s1, s2) :: rest) w =
      replacePairs self rest ⟨w.wid, w.defs, w.counter + 2⟩ := by
  rw [replacePairs, is_equivalent_to_eq]
  simp only [hE, Bool.false_eq_true, if_false]

theorem replacePairs_step_true {self s1 s2 : CLC} {rest : List (CLC × CLC)} {w : World}
    (hE : equivTermB (w.condOf s1) (w.condOf s2) = true) :
    replacePairs self ((s1, s2) :: rest) w =
      replacePairs self rest
        (removeOperandEdges self
          ((⟨w.wid, w.defs, w.counter + 2⟩ : World).condOf s2)
          ⟨w.wid, w.defs, w.counter + 2⟩) := by
  rw [replacePairs, is_equivalent_to_eq]
  simp only [hE, if_true]

/-- The pair loop of `_replace_subexpressions_by_true`: when every handle of the
pairs keeps dereferencing to a conjunction-free term and the main variable is
bound to a conjunction of conjunction-free operands, the loop removes from the
conjunction exactly the operands equivalent to some first component. -/
theorem replacePairs_lookup (self : CLC) (s0 : Nat) (hself : self.ref = VarRef.id s0) :
    ∀ (pairs : List (CLC × CLC)) (w : World) (cur : List Term),
      (∀ pr ∈ pairs, readsStable w pr.1 (w.condOf pr.1) ∧
        readsStable w pr.2 (w.condOf pr.2) ∧
        noAndT (w.condOf pr.1) = true ∧ noAndT (w.condOf pr.2) = true) →
      s0 < w.counter →
      lookupN w.defs s0 = some (Term.band cur) →
      (∀ a ∈ cur, noAndT a = true) →
      lookupN (replacePairs self pairs w).defs s0 =
        some (Term.band (cur.filter fun t =>
          !(pairs.any fun pr => equivTermB (w.condOf pr.1) (w.condOf pr.2) &&
            beqT t (w.condOf pr.2)))) := by
  intro pairs
  induction pairs with
  | nil =>
    intro w cur _ _ hl _
    rw [replacePairs]
    simpa using hl
  | cons pr rest ih =>
    intro w cur hst hs0 hl hna
    obtain ⟨s1, s2⟩ := pr
    obtain ⟨hst1, hst2, hna1, hna2⟩ := hst (s1, s2) (List.mem_cons_self _ _)
    have hcmid : ∀ x : CLC, (⟨w.wid, w.defs, w.counter + 2⟩ : World).condOf x = w.condOf x :=
      fun x => condOf_defs_eq rfl x
    rcases hE : equivTermB (w.condOf s1) (w.condOf s2) with _ | _
    · rw [replacePairs_step_false hE]
      have hstm : ∀ pr2 ∈ rest,
          readsStable (⟨w.wid, w.defs, w.counter + 2⟩ : World) pr2.1
            ((⟨w.wid, w.defs, w.counter + 2⟩ : World).condOf pr2.1) ∧
          readsStable (⟨w.wid, w.defs, w.counter + 2⟩ : World) pr2.2
            ((⟨w.wid, w.defs, w.counter + 2⟩ : World).condOf pr2.2) ∧
          noAndT ((⟨w.wid, w.defs, w.counter + 2⟩ : World).condOf pr2.1) = true ∧
          noAndT ((⟨w.wid, w.defs, w.counter + 2⟩ : World).condOf pr2.2) = true := by
        intro pr2 hpr2
        obtain ⟨h1, h2, h3, h4⟩ := hst pr2 (List.mem_cons_of_mem _ hpr2)
        simp only [hcmid]
        exact ⟨readsStable_bump2 h1, readsStable_bump2 h2, h3, h4⟩
      have hres := ih (⟨w.wid, w.defs, w.counter + 2⟩ : World) cur hstm
        (Nat.lt_of_lt_of_le hs0 (Nat.le_add_right _ 2)) hl hna
      simp only [hcmid] at hres
      rw [hres]
      refine congrArg _ (congrArg _ (List.filter_congr fun t ht => ?_))
      simp [List.any_cons, hE]
    · rw [replacePairs_step_true hE]
      rw [show (⟨w.wid, w.defs, w.counter + 2⟩ : World).condOf s2 = w.condOf s2 from hcmid s2]
      have hcondSelfMid : (⟨w.wid, w.defs, w.counter + 2⟩ : World).condOf self =
          Term.band cur := by
        simp [World.condOf, hself, hl]
      have hw3 : removeOperandEdges self (w.condOf s2) ⟨w.wid, w.defs, w.counter + 2⟩ =
          World.replaceEverywhere ⟨w.wid, w.defs, w.counter + 2⟩ (Term.band cur)
            (Term.band (cur.filter fun a => !(beqT a (w.condOf s2)))) := by
        unfold removeOperandEdges
        rw [hcondSelfMid]
      rw [hw3]
      have hlook3 : lookupN (World.replaceEverywhere ⟨w.wid, w.defs, w.counter + 2⟩
          (Term.band cur)
          (Term.band (cur.filter fun a => !(beqT a (w.condOf s2))))).defs s0 =
          some (Term.band (cur.filter fun a => !(beqT a (w.condOf s2)))) :=
        replaceBand_facts _ cur _ s0 hl
      have hstm3 : ∀ pr2 ∈ rest,
          readsStable (World.replaceEverywhere ⟨w.wid, w.defs, w.counter + 2⟩
              (Term.band cur)
              (Term.band (cur.filter fun a => !(beqT a (w.condOf s2))))) pr2.1
            ((World.replaceEverywhere ⟨w.wid, w.defs, w.counter + 2⟩ (Term.band cur)
              (Term.band (cur.filter fun a => !(beqT a (w.condOf s2))))).condOf pr2.1) ∧
          readsStable (World.replaceEverywhere ⟨w.wid, w.defs, w.counter + 2⟩
              (Term.band cur)
              (Term.band (cur.filter fun a => !(beqT a (w.condOf s2))))) pr2.2
            ((World.replaceEverywhere ⟨w.wid, w.defs, w.counter + 2⟩ (Term.band cur)
              (Term.band (cur.filter fun a => !(beqT a (w.condOf s2))))).condOf pr2.2) ∧
          noAndT ((World.replaceEverywhere ⟨w.wid, w.defs, w.counter + 2⟩ (Term.band cur)
              (Term.band (cur.filter fun a => !(beqT a (w.condOf s2))))).condOf pr2.1) =
            true ∧
          noAndT ((World.replaceEverywhere ⟨w.wid, w.defs, w.counter + 2⟩ (Term.band cur)
              (Term.band (cur.filter fun a => !(beqT a (w.condOf s2))))).condOf pr2.2) =
            true := by
        intro pr2 hpr2
        obtain ⟨h1, h2, h3, h4⟩ := hst pr2 (List.mem_cons_of_mem _ hpr2)
        have g1 : readsStable (World.replaceEverywhere ⟨w.wid, w.defs, w.counter + 2⟩
            (Term.band cur) (Term.band (cur.filter fun a => !(beqT a (w.condOf s2)))))
            pr2.1 (w.condOf pr2.1) := readsStable_stepTrue h3 h1
        have g2 : readsStable (World.replaceEverywhere ⟨w.wid, w.defs, w.counter + 2⟩
            (Term.band cur) (Term.band (cur.filter fun a => !(beqT a (w.condOf s2)))))
            pr2.2 (w.condOf pr2.2) := readsStable_stepTrue h4 h2
        rw [readsStable_condOf g1, readsStable_condOf g2]
        exact ⟨g1, g2, h3, h4⟩
      have hres := ih (World.replaceEverywhere ⟨w.wid, w.defs, w.counter + 2⟩
          (Term.band cur) (Term.band (cur.filter fun a => !(beqT a (w.condOf s2)))))
        (cur.filter fun a => !(beqT a (w.condOf s2))) hstm3
        (Nat.lt_of_lt_of_le hs0 (Nat.le_add_right _ 2)) hlook3
        (fun a ha => hna a (List.mem_of_mem_filter ha))
      have hfix : ((cur.filter fun a => !(beqT a (w.condOf s2))).filter fun t =>
          !(rest.any fun pr2 =>
            equivTermB ((World.replaceEverywhere ⟨w.wid, w.defs, w.counter + 2⟩
                (Term.band cur)
                (Term.band (cur.filter fun a => !(beqT a (w.condOf s2))))).condOf pr2.1)
              ((World.replaceEverywhere ⟨w.wid, w.defs, w.counter + 2⟩ (Term.band cur)
                (Term.band (cur.filter fun a => !(beqT a (w.condOf s2))))).condOf pr2.2) &&
            beqT t ((World.replaceEverywhere ⟨w.wid, w.defs, w.counter + 2⟩ (Term.band cur)
              (Term.band (cur.filter fun a => !(beqT a (w.condOf s2))))).condOf pr2.2))) =
          (cur.filter fun a => !(beqT a (w.condOf s2))).filter fun t =>
            !(rest.any fun pr2 => equivTermB (w.condOf pr2.1) (w.condOf pr2.2) &&
              beqT t (w.condOf pr2.2)) := by
        refine List.filter_congr fun t ht => ?_
        congr 1
        refine any_congr_mem fun pr2 hpr2 => ?_
        obtain ⟨h1, h2, h3, h4⟩ := hst pr2 (List.mem_cons_of_mem _ hpr2)
        have g1 : readsStable (World.replaceEverywhere ⟨w.wid, w.defs, w.counter + 2⟩
            (Term.band cur) (Term.band (cur.filter fun a => !(beqT a (w.condOf s2)))))
            pr2.1 (w.condOf pr2.1) := readsStable_stepTrue h3 h1
        have g2 : readsStable (World.replaceEverywhere ⟨w.wid, w.defs, w.counter + 2⟩
            (Term.band cur) (Term.band (cur.filter fun a => !(beqT a (w.condOf s2)))))
            pr2.2 (w.condOf pr2.2) := readsStable_stepTrue h4 h2
        rw [readsStable_condOf g1, readsStable_condOf g2]
      rw [hfix] at hres
      rw [filter_twice] at hres
      rw [hres]
      refine congrArg _ (congrArg _ (List.filter_congr fun t ht => ?_))
      simp [List.any_cons, hE, Bool.not_or, Bool.and_comm]

/-- Transport of a stable read across one implication test (counter + 1). -/
theorem readsStable_bump1 {w : World} {x : CLC} {t : Term} (hr : readsStable w x t) :
    readsStable ⟨w.wid, w.defs, w.counter + 1⟩ x t :=
  @readsStable_same_defs w ⟨w.wid, w.defs, w.counter + 1⟩ x t rfl (Nat.le_succ _) hr

/-- Reclaiming wrapper variables that are all distinct from the main variable
leaves the main variable's dereferenced condition unchanged. -/
theorem cleanup_skips_condOf {w : World} {self : CLC} {s0 : Nat} {t : Term}
    (hs : self.ref = VarRef.id s0) (cs : List CLC)
    (hcs : ∀ c ∈ cs, ∀ k, c.ref = VarRef.id k → k ≠ s0)
    (hl : lookupN w.defs s0 = some t) :
    (w.cleanup (cs.filterMap fun c => match c.ref with
      | VarRef.id k => some k
      | VarRef.named _ _ => none)).condOf self = t := by
  have hto : ∀ r ∈ cs.filterMap (fun c => match c.ref with
      | VarRef.id k => some k
      | VarRef.named _ _ => none), r ≠ s0 := by
    intro r hr
    rcases List.mem_filterMap.mp hr with ⟨c, hc, hmatch⟩
    cases href : c.ref with
    | named n s =>
      rw [href] at hmatch
      exact Option.noConfusion hmatch
    | id k =>
      rw [href] at hmatch
      have h2 : some k = some r := hmatch
      injection h2 with h3
      exact fun hrs => hcs c hc k href (h3.trans hrs)
  simp only [World.condOf, hs, World.cleanup]
  rw [lookupN_foldErase_ne _ _ _ hto, hl]
  rfl

/-- The clause-removal path of `substitute_by_true` (source lines 250-267): the
handle is returned unchanged; with the condition already in clause normal form
and neither constant nor literal, nothing changes when the conjunct count of
the condition does not exceed that of the proven condition, and otherwise
exactly the clauses equivalent to a proven subexpression (the proven condition
itself when its conjunct count is one) are removed. -/
theorem substMainPath_spec (w : World) (self pt : CLC) (s0 : Nat) (A0 P : Term)
    (hwf : WFdefs w)
    (hs : self.ref = VarRef.id s0)
    (hA : lookupN w.defs s0 = some A0)
    (hpt : readsStable w pt P)
    (hcnf : isCnfFormT A0 = true)
    (hnt : isTrueT A0 = false) (hnf : isFalseT A0 = false)
    (hnn : isNegT A0 = false) (hns : isSymbolT A0 = false)
    (haf : ∀ t2 ∈ (if ((if isConjT P then (operandTerms P).length else 1) == 1)
        then [P] else operandTerms P), noAndT t2 = true) :
    (substMainPath self pt w).1 = self ∧
    ((if isConjT A0 then (operandTerms A0).length else 1) ≤
        (if isConjT P then (operandTerms P).length else 1) →
      (substMainPath self pt w).2.condOf self = A0) ∧
    ((if isConjT P then (operandTerms P).length else 1) <
        (if isConjT A0 then (operandTerms A0).length else 1) →
      ∀ args, A0 = Term.band args →
        (substMainPath self pt w).2.condOf self =
          Term.band (args.filter fun t =>
            !((if ((if isConjT P then (operandTerms P).length else 1) == 1)
                then [P] else operandTerms P).any fun s2 => equivTermB s2 t))) := by
  have hcself : w.condOf self = A0 := by simp [World.condOf, hs, hA]
  have hcpt : w.condOf pt = P := readsStable_condOf hpt
  have hcnf1 : is_cnf_form w self = true := by
    rw [is_cnf_form, hcself]
    exact hcnf
  have hB : to_cnf self w = (self, w) := by
    rw [to_cnf, if_pos hcnf1]
  have hguard : (is_true w self || is_false w self || is_negation w self ||
      is_symbol w self) = false := by
    simp only [is_true, is_false, is_negation, is_symbol, hcself, hnt, hnf, hnn, hns,
      Bool.or_self]
  obtain ⟨mw1, mc1, ⟨pre1, md1, mp1⟩, mwf1, mlen1, mfa1, mtr1, mid1⟩ :=
    wrapAll_facts (operandTerms P) w
  obtain ⟨mw2, mc2, ⟨pre2, md2, mp2⟩, mwf2, mlen2, mfa2, mtr2, mid2⟩ :=
    wrapAll_facts (operandTerms A0) (wrapAll w (operandTerms P)).2
  obtain ⟨mw3, mc3, ⟨pre3, md3, mp3⟩, mwf3, mlen3, mfa3, mtr3, mid3⟩ :=
    wrapAll_facts (operandTerms A0)
      (wrapAll (wrapAll w (operandTerms P)).2 (operandTerms A0)).2
  have hs0 : s0 < w.counter := lookupN_lt_counter hwf hA
  have hlook2 : lookupN (wrapAll w (operandTerms P)).2.defs s0 = some A0 := by
    rw [md1, lookupN_append_fresh pre1 w.defs s0 mp1 hs0]
    exact hA
  have hs02 : s0 < (wrapAll w (operandTerms P)).2.counter := Nat.lt_of_lt_of_le hs0 mc1
  have hlook3 : lookupN
      (wrapAll (wrapAll w (operandTerms P)).2 (operandTerms A0)).2.defs s0 = some A0 := by
    rw [md2, lookupN_append_fresh pre2 _ s0 mp2 hs02]
    exact hlook2
  have hs03 : s0 < (wrapAll (wrapAll w (operandTerms P)).2 (operandTerms A0)).2.counter :=
    Nat.lt_of_lt_of_le hs02 mc2
  have hlook4 : lookupN (wrapAll
      (wrapAll (wrapAll w (operandTerms P)).2 (operandTerms A0)).2
      (operandTerms A0)).2.defs s0 = some A0 := by
    rw [md3, lookupN_append_fresh pre3 _ s0 mp3 hs03]
    exact hlook3
  have hs04 : s0 < (wrapAll
      (wrapAll (wrapAll w (operandTerms P)).2 (operandTerms A0)).2
      (operandTerms A0)).2.counter := Nat.lt_of_lt_of_le hs03 mc3
  have hcond2self : (wrapAll w (operandTerms P)).2.condOf self = A0 := by
    simp [World.condOf, hs, hlook2]
  have hcond3self : (wrapAll (wrapAll w (operandTerms P)).2
      (operandTerms A0)).2.condOf self = A0 := by
    simp [World.condOf, hs, hlook3]
  have hptW3 : readsStable (wrapAll (wrapAll w (operandTerms P)).2
      (operandTerms A0)).2 pt P := mtr2 _ _ (mtr1 _ _ hpt)
  have hptW4 : readsStable (wrapAll
      (wrapAll (wrapAll w (operandTerms P)).2 (operandTerms A0)).2
      (operandTerms A0)).2 pt P := mtr3 _ _ hptW3
  have hcond3pt : (wrapAll (wrapAll w (operandTerms P)).2
      (operandTerms A0)).2.condOf pt = P := readsStable_condOf hptW3
  by_cases hmn : (if isConjT A0 then (operandTerms A0).length else 1) ≤
      (if isConjT P then (operandTerms P).length else 1)
  · have hrun : substMainPath self pt w =
        (self, (wrapAll (wrapAll w (operandTerms P)).2 (operandTerms A0)).2) := by
      rw [substMainPath, hB]
      simp only [hguard, Bool.false_eq_true, if_false, getOperands, hcpt, hcond2self,
        is_conjunction, hcond3self, hcond3pt, mlen1, mlen2, World.cleanupAll]
      rw [if_pos hmn]
    exact ⟨by rw [hrun], fun _ => by rw [hrun]; exact hcond3self,
      fun hlt => absurd hmn (Nat.not_le.mpr hlt)⟩
  · have hrun : substMainPath self pt w =
        (self, World.cleanup
          (replacePairs self
            (pairsOf
              (if ((if isConjT P then (operandTerms P).length else 1) == 1) then [pt]
                else (wrapAll w (operandTerms P)).1)
              (wrapAll (wrapAll (wrapAll w (operandTerms P)).2 (operandTerms A0)).2
                (operandTerms A0)).1)
            (wrapAll (wrapAll (wrapAll w (operandTerms P)).2 (operandTerms A0)).2
              (operandTerms A0)).2)
          (((wrapAll w (operandTerms P)).1 ++
              (wrapAll (wrapAll w (operandTerms P)).2 (operandTerms A0)).1).filterMap
            fun c => match c.ref with
              | VarRef.id k => some k
              | VarRef.named _ _ => none)) := by
      rw [substMainPath, hB]
      simp only [hguard, Bool.false_eq_true, if_false, getOperands, hcpt, hcond2self,
        is_conjunction, hcond3self, hcond3pt, mlen1, mlen2]
      rw [if_neg hmn, replaceSubexpressionsByTrue]
      simp only [getOperands, hcond3self]
    refine ⟨by rw [hrun], fun hle => absurd hle hmn, ?_⟩
    intro hlt args hband
    have hopA : operandTerms A0 = args := by
      rw [hband]
      rfl
    have hsubsFA : List.Forall₂ (readsStable (wrapAll
        (wrapAll (wrapAll w (operandTerms P)).2 (operandTerms A0)).2
        (operandTerms A0)).2)
        (if ((if isConjT P then (operandTerms P).length else 1) == 1) then [pt]
          else (wrapAll w (operandTerms P)).1)
        (if ((if isConjT P then (operandTerms P).length else 1) == 1) then [P]
          else operandTerms P) := by
      rcases hn1 : ((if isConjT P then (operandTerms P).length else 1) == 1) with _ | _
      · simp only [Bool.false_eq_true, if_false]
        exact mfa1.imp fun _ _ h => mtr3 _ _ (mtr2 _ _ h)
      · rw [if_pos rfl, if_pos rfl]
        exact List.Forall₂.cons hptW4 List.Forall₂.nil
    have hopsFA : List.Forall₂ (readsStable (wrapAll
        (wrapAll (wrapAll w (operandTerms P)).2 (operandTerms A0)).2
        (operandTerms A0)).2)
        (wrapAll (wrapAll (wrapAll w (operandTerms P)).2 (operandTerms A0)).2
          (operandTerms A0)).1 args := by
      rw [← hopA]
      exact mfa3
    have hpairsFA := pairsOf_forall2 hopsFA hsubsFA
    have hcnfB : isCnfFormT (Term.band args) = true := by
      rw [← hband]
      exact hcnf
    have hargsNoAnd : ∀ a ∈ args, noAndT a = true := noAnd_operands_of_cnf hcnfB
    have hlook4band : lookupN (wrapAll
        (wrapAll (wrapAll w (operandTerms P)).2 (operandTerms A0)).2
        (operandTerms A0)).2.defs s0 = some (Term.band args) := by
      rw [← hband]
      exact hlook4
    have hstab : ∀ pr ∈ pairsOf
        (if ((if isConjT P then (operandTerms P).length else 1) == 1) then [pt]
          else (wrapAll w (operandTerms P)).1)
        (wrapAll (wrapAll (wrapAll w (operandTerms P)).2 (operandTerms A0)).2
          (operandTerms A0)).1,
        readsStable (wrapAll (wrapAll (wrapAll w (operandTerms P)).2 (operandTerms A0)).2
            (operandTerms A0)).2 pr.1
          ((wrapAll (wrapAll (wrapAll w (operandTerms P)).2 (operandTerms A0)).2
            (operandTerms A0)).2.condOf pr.1) ∧
        readsStable (wrapAll (wrapAll (wrapAll w (operandTerms P)).2 (operandTerms A0)).2
            (operandTerms A0)).2 pr.2
          ((wrapAll (wrapAll (wrapAll w (operandTerms P)).2 (operandTerms A0)).2
            (operandTerms A0)).2.condOf pr.2) ∧
        noAndT ((wrapAll (wrapAll (wrapAll w (operandTerms P)).2 (operandTerms A0)).2
          (operandTerms A0)).2.condOf pr.1) = true ∧
        noAndT ((wrapAll (wrapAll (wrapAll w (operandTerms P)).2 (operandTerms A0)).2
          (operandTerms A0)).2.condOf pr.2) = true := by
      intro pr hpr
      obtain ⟨tt, htt, h1, h2⟩ := forall2_mem_left hpairsFA pr hpr
      rw [readsStable_condOf h1, readsStable_condOf h2]
      exact ⟨h1, h2, haf tt.1 (mem_pairsOf htt).1, hargsNoAnd tt.2 (mem_pairsOf htt).2⟩
    have hrp := replacePairs_lookup self s0 hs
      (pairsOf
        (if ((if isConjT P then (operandTerms P).length else 1) == 1) then [pt]
          else (wrapAll w (operandTerms P)).1)
        (wrapAll (wrapAll (wrapAll w (operandTerms P)).2 (operandTerms A0)).2
          (operandTerms A0)).1)
      (wrapAll (wrapAll (wrapAll w (operandTerms P)).2 (operandTerms A0)).2
        (operandTerms A0)).2
      args hstab hs04 hlook4band hargsNoAnd
    have hfilt : (args.filter fun t =>
        !((pairsOf
          (if ((if isConjT P then (operandTerms P).length else 1) == 1) then [pt]
            else (wrapAll w (operandTerms P)).1)
          (wrapAll (wrapAll (wrapAll w (operandTerms P)).2 (operandTerms A0)).2
            (operandTerms A0)).1).any fun pr =>
          equivTermB ((wrapAll (wrapAll (wrapAll w (operandTerms P)).2
              (operandTerms A0)).2 (operandTerms A0)).2.condOf pr.1)
            ((wrapAll (wrapAll (wrapAll w (operandTerms P)).2
              (operandTerms A0)).2 (operandTerms A0)).2.condOf pr.2) &&
          beqT t ((wrapAll (wrapAll (wrapAll w (operandTerms P)).2
            (operandTerms A0)).2 (operandTerms A0)).2.condOf pr.2))) =
        args.filter fun t =>
          !((if ((if isConjT P then (operandTerms P).length else 1) == 1)
              then [P] else operandTerms P).any fun s2 => equivTermB s2 t) := by
      refine List.filter_congr fun t ht => ?_
      congr 1
      have hconv : List.Forall₂ (fun (pr : CLC × CLC) (tt : Term × Term) =>
          (equivTermB ((wrapAll (wrapAll (wrapAll w (operandTerms P)).2
              (operandTerms A0)).2 (operandTerms A0)).2.condOf pr.1)
            ((wrapAll (wrapAll (wrapAll w (operandTerms P)).2
              (operandTerms A0)).2 (operandTerms A0)).2.condOf pr.2) &&
          beqT t ((wrapAll (wrapAll (wrapAll w (operandTerms P)).2
            (operandTerms A0)).2 (operandTerms A0)).2.condOf pr.2)) =
          (equivTermB tt.1 tt.2 && beqT t tt.2))
          (pairsOf
            (if ((if isConjT P then (operandTerms P).length else 1) == 1) then [pt]
              else (wrapAll w (operandTerms P)).1)
            (wrapAll (wrapAll (wrapAll w (operandTerms P)).2 (operandTerms A0)).2
              (operandTerms A0)).1)
          (pairsOf
            (if ((if isConjT P then (operandTerms P).length else 1) == 1) then [P]
              else operandTerms P) args) :=
        hpairsFA.imp fun _ _ h12 => by
          rw [readsStable_condOf h12.1, readsStable_condOf h12.2]
      rw [any_eq_of_forall2 hconv, pairsOf_any_right ht]
    have hids : ∀ c ∈ (wrapAll w (operandTerms P)).1 ++
        (wrapAll (wrapAll w (operandTerms P)).2 (operandTerms A0)).1,
        ∀ k, c.ref = VarRef.id k → k ≠ s0 := by
      intro c hc k hk
      rcases List.mem_append.mp hc with h1 | h2
      · have := mid1 c h1 k hk
        omega
      · have := mid2 c h2 k hk
        omega
    have hfin := cleanup_skips_condOf hs
      ((wrapAll w (operandTerms P)).1 ++
        (wrapAll (wrapAll w (operandTerms P)).2 (operandTerms A0)).1) hids hrp
    rw [hfilt] at hfin
    rw [hrun]
    exact hfin

/-- C2: after `self` is brought to CNF and is neither constant nor a literal,
the clause-removal path of `substitute_by_true(self, provenTrue)` returns the
same handle; with m top-level conjuncts of `self` and n of `provenTrue` (one
each when not a conjunction), the condition is unchanged when m is at most n,
and when m exceeds n exactly the conjuncts equivalent to some top-level
subexpression of `provenTrue` (to `provenTrue` itself when n is one) are
removed from the conjunction. -/
theorem C2_substitute_by_true_clauses (w : World) (self pt : CLC) (s0 : Nat)
    (A0 P : Term)
    (hwf : WFdefs w)
    (hs : self.ref = VarRef.id s0)
    (hA : lookupN w.defs s0 = some A0)
    (hpt : readsStable w pt P)
    (hcnf : isCnfFormT A0 = true)
    (hnt : isTrueT A0 = false) (hnf : isFalseT A0 = false)
    (hnn : isNegT A0 = false) (hns : isSymbolT A0 = false)
    (hne : beqT A0 P = false)
    (hni : impliesTermB P A0 = false)
    (haf : ∀ t2 ∈ (if ((if isConjT P then (operandTerms P).length else 1) == 1)
        then [P] else operandTerms P), noAndT t2 = true) :
    (substitute_by_true self pt w).1 = self ∧
    ((if isConjT A0 then (operandTerms A0).length else 1) ≤
        (if isConjT P then (operandTerms P).length else 1) →
      (substitute_by_true self pt w).2.condOf self = A0) ∧
    ((if isConjT P then (operandTerms P).length else 1) <
        (if isConjT A0 then (operandTerms A0).length else 1) →
      ∀ args, A0 = Term.band args →
        (substitute_by_true self pt w).2.condOf self =
          Term.band (args.filter fun t =>
            !((if ((if isConjT P then (operandTerms P).length else 1) == 1)
                then [P] else operandTerms P).any fun s2 => equivTermB s2 t))) := by
  have hcself : w.condOf self = A0 := by simp [World.condOf, hs, hA]
  have hcpt : w.condOf pt = P := readsStable_condOf hpt
  have hA1 : substitute_by_true self pt w =
      substMainPath self pt ⟨w.wid, w.defs, w.counter + 1⟩ := by
    rw [substitute_by_true, does_imply_eq]
    simp only [is_true, is_equal_to, hcself, hcpt, hnt, hne, hni, Bool.false_eq_true,
      if_false]
  obtain ⟨n1, n2, n3⟩ := substMainPath_spec ⟨w.wid, w.defs, w.counter + 1⟩ self pt s0 A0 P
    (WFdefs_bump hwf) hs hA (readsStable_bump1 hpt) hcnf hnt hnf hnn hns haf
  refine ⟨by rw [hA1]; exact n1, fun hle => by rw [hA1]; exact n2 hle,
    fun hlt args hband => by rw [hA1]; exact n3 hlt args hband⟩

/-- Witness for C2: `substitute_by_true(AND(a, b, c), a)` keeps the handle and
leaves the conjunction `AND(b, c)`. -/
theorem C2_witness :
    (substitute_by_true ⟨VarRef.id 0, 0⟩ ⟨VarRef.named "a" 1, 0⟩
        ⟨0, [(0, Term.band [Term.var "a" 1, Term.var "b" 1, Term.var "c" 1])], 1⟩).1 =
      ⟨VarRef.id 0, 0⟩ ∧
    (substitute_by_true ⟨VarRef.id 0, 0⟩ ⟨VarRef.named "a" 1, 0⟩
        ⟨0, [(0, Term.band [Term.var "a" 1, Term.var "b" 1, Term.var "c" 1])], 1⟩).2.condOf
      ⟨VarRef.id 0, 0⟩ = Term.band [Term.var "b" 1, Term.var "c" 1] := by
  obtain ⟨h1, h2, h3⟩ := C2_substitute_by_true_clauses
    ⟨0, [(0, Term.band [Term.var "a" 1, Term.var "b" 1, Term.var "c" 1])], 1⟩
    ⟨VarRef.id 0, 0⟩ ⟨VarRef.named "a" 1, 0⟩ 0
    (Term.band [Term.var "a" 1, Term.var "b" 1, Term.var "c" 1]) (Term.var "a" 1)
    (by intro p hp; rw [List.mem_singleton.mp hp]; exact Nat.zero_lt_one)
    rfl rfl (Or.inl ⟨"a", 1, rfl, rfl⟩) rfl rfl rfl rfl rfl rfl rfl
    (by intro t2 ht2; rw [List.mem_singleton.mp ht2]; rfl)
  refine ⟨h1, ?_⟩
  have h4 := h3 (by decide) [Term.var "a" 1, Term.var "b" 1, Term.var "c" 1] rfl
  rw [h4]
  rfl

end Dewolf
